import Mathlib

/-!
Verification of the RustMatrix library (`src/lib.rs`): a dense row-major
matrix of rationals with accessors, mutators, elementwise and matrix
arithmetic, and a determinant computed by Gaussian elimination with
row-then-column pivot exchange and sign tracking.

The element type `T` in the source is a generic field-like numeric type
(`Num + Signed + Float`); we embed it as `ℚ`, the exact-arithmetic field,
so that algebraic claims are about the algorithm rather than rounding.
Panics in the source are modelled as `Except.error` with the corresponding
error kind from the spec's taxonomy.  `Vec` indexing is modelled with
`List.getD _ _ 0`; every internal use is guarded by the same bounds checks
the source performs, so the default is never read on well-formed input.
-/

namespace RustMatrix

deriving instance DecidableEq for Except

/-- Spec §7 error taxonomy; each corresponds to one panic site in the source. -/
inductive MatrixError where
  | indexOutOfRange
  | sizeMismatch
  | dimensionMismatch
  | notSquare
deriving DecidableEq, Repr

/-- The `Matrix<T>` struct: row count, column count, flat row-major data. -/
structure Mat where
  rows : ℕ
  columns : ℕ
  data : List ℚ
deriving DecidableEq, Repr

/-- Run `f 0`, `f 1`, …, `f (n-1)` in order: a `for i in 0..n` loop. -/
def loopN (f : ℕ → α → α) : ℕ → α → α
  | 0, a => a
  | n + 1, a => f n (loopN f n a)

/-- Unchecked cell read at `(row, column)`: linear index `row*columns + column`. -/
def Mat.getv (m : Mat) (row column : ℕ) : ℚ :=
  m.data.getD (row * m.columns + column) 0

/-- Unchecked `get_row` body: push `data[columns*row + i]` for `i in 0..columns`. -/
def Mat.getRowv (m : Mat) (row : ℕ) : List ℚ :=
  (List.range m.columns).map fun i => m.data.getD (m.columns * row + i) 0

/-- Unchecked `get_column` body: push `data[i*columns + column]` for `i in 0..rows`. -/
def Mat.getColumnv (m : Mat) (column : ℕ) : List ℚ :=
  (List.range m.rows).map fun i => m.data.getD (i * m.columns + column) 0

/-- Unchecked `get_diagonal` body: push `data[i + i*columns]` for `i in 0..columns`. -/
def Mat.getDiagonalv (m : Mat) : List ℚ :=
  (List.range m.columns).map fun i => m.data.getD (i + i * m.columns) 0

/-- Unchecked `set` body: write at linear index `row*columns + column`. -/
def Mat.setv (m : Mat) (row column : ℕ) (v : ℚ) : Mat :=
  { m with data := m.data.set (row * m.columns + column) v }

/-- Unchecked `set_row` body: `set(row, i, v[i])` for `i in 0..v.len()`. -/
def Mat.setRowv (m : Mat) (row : ℕ) (v : List ℚ) : Mat :=
  loopN (fun i t => t.setv row i (v.getD i 0)) v.length m

/-- Unchecked `set_column` body: `set(i, column, v[i])` for `i in 0..v.len()`. -/
def Mat.setColumnv (m : Mat) (column : ℕ) (v : List ℚ) : Mat :=
  loopN (fun i t => t.setv i column (v.getD i 0)) v.length m

/-- Unchecked `exchange_rows` body: copy row2, then for each `i` move
`data[columns*row1+i]` into `data[columns*row2+i]` and the copy into row1. -/
def Mat.exchangeRowsv (m : Mat) (row1 row2 : ℕ) : Mat :=
  let temp := m.getRowv row2
  { m with data := loopN (fun i d =>
      ((d.set (m.columns * row2 + i) (d.getD (m.columns * row1 + i) 0)).set
        (m.columns * row1 + i) (temp.getD i 0))) m.columns m.data }

/-- Unchecked `exchange_columns` body: copy column2, then for each `i` move
`data[column1 + i*columns]` into `data[column2 + i*columns]` and the copy
into column1. -/
def Mat.exchangeColumnsv (m : Mat) (column1 column2 : ℕ) : Mat :=
  let temp := m.getColumnv column2
  { m with data := loopN (fun i d =>
      ((d.set (column2 + i * m.columns) (d.getD (column1 + i * m.columns) 0)).set
        (column1 + i * m.columns) (temp.getD i 0))) m.rows m.data }

/-- Constructor `Matrix::new`: every cell is the default value; no failure path. -/
def Mat.new (rows columns : ℕ) (default : ℚ) : Mat :=
  ⟨rows, columns, List.replicate (rows * columns) default⟩

/-- Accessor `Matrix::get` with its bounds check. -/
def Mat.get (m : Mat) (row column : ℕ) : Except MatrixError ℚ :=
  if row ≥ m.rows ∨ column ≥ m.columns then .error .indexOutOfRange
  else .ok (m.getv row column)

/-- Accessor `Matrix::get_row` with its bounds check. -/
def Mat.get_row (m : Mat) (row : ℕ) : Except MatrixError (List ℚ) :=
  if row ≥ m.rows then .error .indexOutOfRange else .ok (m.getRowv row)

/-- Accessor `Matrix::get_column` with its bounds check. -/
def Mat.get_column (m : Mat) (column : ℕ) : Except MatrixError (List ℚ) :=
  if column ≥ m.columns then .error .indexOutOfRange else .ok (m.getColumnv column)

/-- Accessor `Matrix::get_diagonal` with its squareness check. -/
def Mat.get_diagonal (m : Mat) : Except MatrixError (List ℚ) :=
  if m.columns ≠ m.rows then .error .notSquare else .ok m.getDiagonalv

/-- Mutator `Matrix::set` with its bounds check. -/
def Mat.set (m : Mat) (row column : ℕ) (v : ℚ) : Except MatrixError Mat :=
  if row ≥ m.rows ∨ column ≥ m.columns then .error .indexOutOfRange
  else .ok (m.setv row column v)

/-- Mutator `Matrix::set_row` with its bounds and size checks. -/
def Mat.set_row (m : Mat) (row : ℕ) (v : List ℚ) : Except MatrixError Mat :=
  if row ≥ m.rows then .error .indexOutOfRange
  else if v.length ≠ m.columns then .error .sizeMismatch
  else .ok (m.setRowv row v)

/-- Mutator `Matrix::set_column` with its bounds and size checks. -/
def Mat.set_column (m : Mat) (column : ℕ) (v : List ℚ) : Except MatrixError Mat :=
  if column ≥ m.columns then .error .indexOutOfRange
  else if v.length ≠ m.rows then .error .sizeMismatch
  else .ok (m.setColumnv column v)

/-- Mutator `Matrix::exchange_rows` with its bounds check. -/
def Mat.exchange_rows (m : Mat) (row1 row2 : ℕ) : Except MatrixError Mat :=
  if row1 ≥ m.rows ∨ row2 ≥ m.rows then .error .indexOutOfRange
  else .ok (m.exchangeRowsv row1 row2)

/-- Mutator `Matrix::exchange_columns` with its bounds check. -/
def Mat.exchange_columns (m : Mat) (column1 column2 : ℕ) : Except MatrixError Mat :=
  if column1 ≥ m.columns ∨ column2 ≥ m.columns then .error .indexOutOfRange
  else .ok (m.exchangeColumnsv column1 column2)

/-- Operator `Add for Matrix<T>`: flat-length check, then elementwise sum;
the result takes the left operand's declared row/column counts. -/
def Mat.add (a b : Mat) : Except MatrixError Mat :=
  if a.data.length ≠ b.data.length then .error .sizeMismatch
  else .ok ⟨a.rows, a.columns,
    (List.range a.data.length).map fun i => a.data.getD i 0 + b.data.getD i 0⟩

/-- Operator `Sub for Matrix<T>`: flat-length check, then elementwise difference. -/
def Mat.sub (a b : Mat) : Except MatrixError Mat :=
  if a.data.length ≠ b.data.length then .error .sizeMismatch
  else .ok ⟨a.rows, a.columns,
    (List.range a.data.length).map fun i => a.data.getD i 0 - b.data.getD i 0⟩

/-- The multiplication accumulator: `new_value = 0; for (a,b) in zip { new_value += a*b }`. -/
def dotAcc (row col : List ℚ) : ℚ :=
  (row.zip col).foldl (fun acc p => acc + p.1 * p.2) 0

/-- Operator `Mul for Matrix<T>`: inner-dimension check, then for each row `i` of `a`
and column `k` of `b` push the accumulated product; result is
`a.rows × b.columns`. -/
def Mat.mul (a b : Mat) : Except MatrixError Mat :=
  if a.columns ≠ b.rows then .error .dimensionMismatch
  else .ok ⟨a.rows, b.columns,
    (List.range a.rows).flatMap fun i =>
      (List.range b.columns).map fun k => dotAcc (a.getRowv i) (b.getColumnv k)⟩

/-- The row-search `while` loop in `get_determinant`: starting at `x`, find the
first row (among the next `fuel` rows) with a nonzero entry in column `i`. -/
def findRowPivot (trig : Mat) (i : ℕ) : ℕ → ℕ → Option ℕ
  | _, 0 => none
  | x, fuel + 1 => if trig.getv x i ≠ 0 then some x else findRowPivot trig i (x + 1) fuel

/-- The column-search `while` loop: starting at `x`, find the first column
(among the next `fuel` columns) with a nonzero entry in row `i`. -/
def findColPivot (trig : Mat) (i : ℕ) : ℕ → ℕ → Option ℕ
  | _, 0 => none
  | x, fuel + 1 => if trig.getv i x ≠ 0 then some x else findColPivot trig i (x + 1) fuel

/-- Row-exchange phase of one pivot step: if the pivot is zero, search rows
`i+1..srows` and on success exchange, negate the sign, and re-read the pivot. -/
def rowPhase (srows i : ℕ) (st : Mat × ℚ × ℚ) : Mat × ℚ × ℚ :=
  match st with
  | (trig, sign, pivot) =>
    if pivot = 0 then
      match findRowPivot trig i (i + 1) (srows - (i + 1)) with
      | some x =>
        let t := trig.exchangeRowsv x i
        (t, -sign, t.getv i i)
      | none => (trig, sign, pivot)
    else (trig, sign, pivot)

/-- Column-exchange phase: if the pivot is still zero, search columns
`i+1..scols` and on success exchange, negate the sign, and re-read the pivot. -/
def colPhase (scols i : ℕ) (st : Mat × ℚ × ℚ) : Mat × ℚ × ℚ :=
  match st with
  | (trig, sign, pivot) =>
    if pivot = 0 then
      match findColPivot trig i (i + 1) (scols - (i + 1)) with
      | some x =>
        let t := trig.exchangeColumnsv i x
        (t, -sign, t.getv i i)
      | none => (trig, sign, pivot)
    else (trig, sign, pivot)

/-- Elimination inner loop: for each row `x` below the pivot row `i`,
replace it by `row_x - (row_x[i]/pivot) * row_i`. -/
def elimLoop (i : ℕ) (pivot : ℚ) : ℕ → ℕ → Mat → Mat
  | _, 0, trig => trig
  | x, fuel + 1, trig =>
    let mult := trig.getv x i / pivot
    let new_row := List.zipWith (fun a b => a - mult * b) (trig.getRowv x) (trig.getRowv i)
    elimLoop i pivot (x + 1) fuel (trig.setRowv x new_row)

/-- The `for i in 0..columns` pivot loop of `get_determinant`, with `fuel`
remaining iterations.  After the loop, the result is
`sign * product(diagonal)`; a doubly-failed pivot search returns `0` at once. -/
def detGo (srows scols : ℕ) : ℕ → ℕ → Mat → ℚ → ℚ
  | _, 0, trig, sign => sign * trig.getDiagonalv.prod
  | i, fuel + 1, trig, sign =>
    match colPhase scols i (rowPhase srows i (trig, sign, trig.getv i i)) with
    | (trig2, sign2, pivot2) =>
      if pivot2 = 0 then 0
      else detGo srows scols (i + 1) fuel
        (elimLoop i pivot2 (i + 1) (trig2.rows - (i + 1)) trig2) sign2

/-- Method `Matrix::get_determinant`: squareness check, then run the pivot loop on a
private working copy of the receiver's data, starting with `sign = 1`. -/
def Mat.get_determinant (m : Mat) : Except MatrixError ℚ :=
  if m.rows ≠ m.columns then .error .notSquare
  else .ok (detGo m.rows m.columns 0 m.columns ⟨m.rows, m.columns, m.data⟩ 1)

/-- Method `get_determinant` together with the final state of the receiver: the source
takes `&self` and clones `self.data` into `trig_matrix`, so every write of the
algorithm lands in the working copy and the receiver it hands back is the one
it was given. -/
def Mat.get_determinant_frame (m : Mat) : Except MatrixError (ℚ × Mat) :=
  if m.rows ≠ m.columns then .error .notSquare
  else .ok (detGo m.rows m.columns 0 m.columns ⟨m.rows, m.columns, m.data⟩ 1, m)

/-- The representation invariant: flat data length is `rows * columns`. -/
def Mat.WF (m : Mat) : Prop :=
  m.data.length = m.rows * m.columns

/-- Abstraction to a Mathlib matrix, for a square matrix of size `n`. -/
def toMat (m : Mat) (n : ℕ) : Matrix (Fin n) (Fin n) ℚ :=
  Matrix.of fun r c => m.getv r c

/-! ### Basic list and index lemmas -/

theorem getD_set (l : List ℚ) (i j : ℕ) (a : ℚ) :
    (l.set i a).getD j 0 = if i = j ∧ j < l.length then a else l.getD j 0 := by
  by_cases hj : j < l.length
  · rw [List.getD_eq_getElem _ _ (by simpa using hj), List.getElem_set]
    by_cases hij : i = j
    · simp [hij, hj]
    · simp only [hij, if_false, false_and]
      exact (List.getD_eq_getElem _ _ hj).symm
  · rw [List.getD_eq_default _ _ (by simpa using Nat.le_of_not_lt hj),
      List.getD_eq_default _ _ (Nat.le_of_not_lt hj)]
    simp [hj]

theorem set_getD_self (l : List ℚ) (i : ℕ) : l.set i (l.getD i 0) = l := by
  induction l generalizing i with
  | nil => rfl
  | cons a l ih =>
    cases i with
    | zero => rfl
    | succ j => simpa [List.set, List.getD] using ih j

theorem getD_map_range (f : ℕ → ℚ) (n i : ℕ) (h : i < n) :
    ((List.range n).map f).getD i 0 = f i := by
  rw [List.getD_eq_getElem _ _ (by simpa using h)]
  simp

/-- Row-major indices are injective: `cols*r + c` with `c < cols` determines `(r, c)`. -/
theorem rowIdx_inj {cols r1 r2 c1 c2 : ℕ} (h1 : c1 < cols) (h2 : c2 < cols)
    (h : cols * r1 + c1 = cols * r2 + c2) : r1 = r2 ∧ c1 = c2 := by
  have hc : 0 < cols := Nat.pos_of_ne_zero (by rintro rfl; omega)
  have e1 : (cols * r1 + c1) / cols = r1 := by
    rw [Nat.mul_add_div hc, Nat.div_eq_of_lt h1, Nat.add_zero]
  have e2 : (cols * r2 + c2) / cols = r2 := by
    rw [Nat.mul_add_div hc, Nat.div_eq_of_lt h2, Nat.add_zero]
  have hr : r1 = r2 := by rw [← e1, ← e2, h]
  subst hr
  exact ⟨rfl, Nat.add_left_cancel h⟩

/-- A row-major index of an in-range cell is within the flat data. -/
theorem idx_lt {rows cols r c : ℕ} (hr : r < rows) (hc : c < cols) :
    cols * r + c < rows * cols := by
  calc cols * r + c < cols * r + cols := by omega
    _ = cols * (r + 1) := by ring
    _ ≤ cols * rows := Nat.mul_le_mul_left cols hr
    _ = rows * cols := Nat.mul_comm _ _

/-! ### Shape preservation of the loops -/

theorem loopN_mat_fields (f : ℕ → Mat → Mat)
    (hf : ∀ i t, (f i t).rows = t.rows ∧ (f i t).columns = t.columns ∧
      (f i t).data.length = t.data.length) :
    ∀ n m, (loopN f n m).rows = m.rows ∧ (loopN f n m).columns = m.columns ∧
      (loopN f n m).data.length = m.data.length := by
  intro n
  induction n with
  | zero => intro m; exact ⟨rfl, rfl, rfl⟩
  | succ k ih =>
    intro m
    obtain ⟨h1, h2, h3⟩ := ih m
    obtain ⟨g1, g2, g3⟩ := hf k (loopN f k m)
    exact ⟨g1.trans h1, g2.trans h2, g3.trans h3⟩

theorem loopN_data_length (f : ℕ → List ℚ → List ℚ)
    (hf : ∀ i d, (f i d).length = d.length) :
    ∀ n d, (loopN f n d).length = d.length := by
  intro n
  induction n with
  | zero => intro d; rfl
  | succ k ih => intro d; rw [loopN, hf, ih]

theorem setv_fields (m : Mat) (r c : ℕ) (v : ℚ) :
    (m.setv r c v).rows = m.rows ∧ (m.setv r c v).columns = m.columns ∧
      (m.setv r c v).data.length = m.data.length := by
  refine ⟨rfl, rfl, ?_⟩
  simp [Mat.setv]

theorem setRowv_fields (m : Mat) (row : ℕ) (v : List ℚ) :
    (m.setRowv row v).rows = m.rows ∧ (m.setRowv row v).columns = m.columns ∧
      (m.setRowv row v).data.length = m.data.length :=
  loopN_mat_fields _ (fun i t => setv_fields t row i (v.getD i 0)) v.length m

theorem setColumnv_fields (m : Mat) (column : ℕ) (v : List ℚ) :
    (m.setColumnv column v).rows = m.rows ∧ (m.setColumnv column v).columns = m.columns ∧
      (m.setColumnv column v).data.length = m.data.length :=
  loopN_mat_fields _ (fun i t => setv_fields t i column (v.getD i 0)) v.length m

theorem exchangeRowsv_fields (m : Mat) (r1 r2 : ℕ) :
    (m.exchangeRowsv r1 r2).rows = m.rows ∧ (m.exchangeRowsv r1 r2).columns = m.columns ∧
      (m.exchangeRowsv r1 r2).data.length = m.data.length :=
  ⟨rfl, rfl, loopN_data_length _ (fun i d => by simp) m.columns m.data⟩

theorem exchangeColumnsv_fields (m : Mat) (c1 c2 : ℕ) :
    (m.exchangeColumnsv c1 c2).rows = m.rows ∧ (m.exchangeColumnsv c1 c2).columns = m.columns ∧
      (m.exchangeColumnsv c1 c2).data.length = m.data.length :=
  ⟨rfl, rfl, loopN_data_length _ (fun i d => by simp) m.rows m.data⟩

/-! ### Pointwise characterisation of `set_row`'s write loop -/

theorem setv_data (m : Mat) (r c : ℕ) (x : ℚ) :
    (m.setv r c x).data = m.data.set (r * m.columns + c) x := rfl

theorem loopN_setRow_getD (m : Mat) (row : ℕ) (v : List ℚ) (k : ℕ) : ∀ p,
    (loopN (fun i t => t.setv row i (v.getD i 0)) k m).data.getD p 0 =
      if row * m.columns ≤ p ∧ p < row * m.columns + k ∧ p < m.data.length
      then v.getD (p - row * m.columns) 0
      else m.data.getD p 0 := by
  induction k with
  | zero =>
    intro p
    rw [loopN, if_neg]
    omega
  | succ k ih =>
    intro p
    have hfld := loopN_mat_fields (fun i t => t.setv row i (v.getD i 0))
      (fun i t => setv_fields t row i (v.getD i 0)) k m
    rw [loopN, setv_data, hfld.2.1, getD_set, hfld.2.2, ih p]
    by_cases h1 : row * m.columns + k = p ∧ p < m.data.length
    · have hk : p - row * m.columns = k := by omega
      have h2 : row * m.columns ≤ p ∧ p < row * m.columns + (k + 1) ∧ p < m.data.length := by
        omega
      simp only [h1, h2, if_true, and_self, hk]
    · have h2 : ((row * m.columns ≤ p ∧ p < row * m.columns + k ∧ p < m.data.length) ↔
          (row * m.columns ≤ p ∧ p < row * m.columns + (k + 1) ∧ p < m.data.length)) := by
        omega
      simp only [if_neg h1]
      by_cases h3 : row * m.columns ≤ p ∧ p < row * m.columns + k ∧ p < m.data.length
      · simp only [h3, h2.mp h3, if_true]
      · simp only [h3, (not_iff_not.mpr h2).mp h3, if_false]

/-- Effect of `setRowv` with a row of the declared width, cell `(r,c)` holds the new
row's entry when `r = row` and is untouched otherwise. -/
theorem setRowv_getv (m : Mat) (row : ℕ) (v : List ℚ) (hWF : m.WF)
    (hv : v.length = m.columns) (r c : ℕ) (hr : r < m.rows) (hc : c < m.columns) :
    (m.setRowv row v).getv r c = if r = row then v.getD c 0 else m.getv r c := by
  have hp : r * m.columns + c < m.data.length := by
    rw [hWF]
    calc r * m.columns + c < r * m.columns + m.columns := by omega
      _ = (r + 1) * m.columns := (Nat.succ_mul r m.columns).symm
      _ ≤ m.rows * m.columns := Nat.mul_le_mul_right _ hr
  rw [Mat.getv, (setRowv_fields m row v).2.1, Mat.setRowv, loopN_setRow_getD]
  by_cases hrw : r = row
  · subst hrw
    have hcond : r * m.columns ≤ r * m.columns + c ∧
        r * m.columns + c < r * m.columns + v.length ∧
        r * m.columns + c < m.data.length := by omega
    have hsub : r * m.columns + c - r * m.columns = c := by omega
    simp [hcond, hsub, Mat.getv]
  · have hcond : ¬(row * m.columns ≤ r * m.columns + c ∧
        r * m.columns + c < row * m.columns + v.length ∧
        r * m.columns + c < m.data.length) := by
      rintro ⟨ha, hb, -⟩
      rcases Nat.lt_or_ge r row with hlt | hge
      · have h3 : (r + 1) * m.columns ≤ row * m.columns := Nat.mul_le_mul_right _ hlt
        have h4 : (r + 1) * m.columns = r * m.columns + m.columns := Nat.succ_mul r m.columns
        omega
      · have hgt : row < r := lt_of_le_of_ne hge (Ne.symm hrw)
        have h3 : (row + 1) * m.columns ≤ r * m.columns := Nat.mul_le_mul_right _ hgt
        have h4 : (row + 1) * m.columns = row * m.columns + m.columns := Nat.succ_mul row m.columns
        omega
    simp [hcond, hrw, Mat.getv]

/-! ### Pointwise characterisation of `exchange_rows` -/

theorem rowRange_disjoint {cols r1 r2 p : ℕ} (hne : r1 ≠ r2)
    (ha : cols * r1 ≤ p ∧ p < cols * r1 + cols)
    (hb : cols * r2 ≤ p ∧ p < cols * r2 + cols) : False :=
  hne (@rowIdx_inj cols r1 r2 (p - cols * r1) (p - cols * r2)
    (by omega) (by omega) (by omega)).1

theorem getRowv_getD (m : Mat) (row i : ℕ) (h : i < m.columns) :
    (m.getRowv row).getD i 0 = m.data.getD (m.columns * row + i) 0 := by
  rw [Mat.getRowv]
  exact getD_map_range _ _ _ h

theorem getColumnv_getD (m : Mat) (column i : ℕ) (h : i < m.rows) :
    (m.getColumnv column).getD i 0 = m.data.getD (i * m.columns + column) 0 := by
  rw [Mat.getColumnv]
  exact getD_map_range _ _ _ h

theorem loopN_exchRows_getD (m : Mat) (r1 r2 : ℕ) (hne : r1 ≠ r2) (h1 : r1 < m.rows)
    (h2 : r2 < m.rows) (hWF : m.WF) (k : ℕ) (hk : k ≤ m.columns) : ∀ p,
    (loopN (fun i d =>
      ((d.set (m.columns * r2 + i) (d.getD (m.columns * r1 + i) 0)).set
        (m.columns * r1 + i) ((m.getRowv r2).getD i 0))) k m.data).getD p 0 =
      if m.columns * r1 ≤ p ∧ p < m.columns * r1 + k
      then (m.getRowv r2).getD (p - m.columns * r1) 0
      else if m.columns * r2 ≤ p ∧ p < m.columns * r2 + k
      then m.data.getD (m.columns * r1 + (p - m.columns * r2)) 0
      else m.data.getD p 0 := by
  have hcomm : m.columns * m.rows = m.rows * m.columns := Nat.mul_comm _ _
  have hlen1 : m.columns * r1 + m.columns ≤ m.data.length := by
    have h := Nat.mul_le_mul_left m.columns (Nat.succ_le_of_lt h1)
    rw [Nat.mul_succ] at h
    rw [hWF]
    omega
  have hlen2 : m.columns * r2 + m.columns ≤ m.data.length := by
    have h := Nat.mul_le_mul_left m.columns (Nat.succ_le_of_lt h2)
    rw [Nat.mul_succ] at h
    rw [hWF]
    omega
  induction k with
  | zero =>
    intro p
    simp only [loopN]
    rw [if_neg (by omega), if_neg (by omega)]
  | succ k ih =>
    intro p
    have hkc : k < m.columns := hk
    have ihh := ih (by omega)
    have hLlen : (loopN (fun i d =>
        ((d.set (m.columns * r2 + i) (d.getD (m.columns * r1 + i) 0)).set
          (m.columns * r1 + i) ((m.getRowv r2).getD i 0))) k m.data).length
        = m.data.length := loopN_data_length _ (fun i d => by simp) k m.data
    rw [loopN, getD_set, List.length_set, hLlen, getD_set, hLlen]
    by_cases hpa1 : m.columns * r1 + k = p
    · have hplen : p < m.data.length := by omega
      rw [if_pos ⟨hpa1, hplen⟩]
      have hE1 : m.columns * r1 ≤ p ∧ p < m.columns * r1 + (k + 1) := by omega
      rw [if_pos hE1]
      have hsub : p - m.columns * r1 = k := by omega
      rw [hsub]
    · rw [if_neg (fun h => hpa1 h.1)]
      by_cases hpa2 : m.columns * r2 + k = p
      · have hplen : p < m.data.length := by omega
        rw [if_pos ⟨hpa2, hplen⟩, ihh]
        have hC1 : ¬(m.columns * r1 ≤ m.columns * r1 + k ∧
            m.columns * r1 + k < m.columns * r1 + k) := by omega
        have hC2 : ¬(m.columns * r2 ≤ m.columns * r1 + k ∧
            m.columns * r1 + k < m.columns * r2 + k) := by
          rintro ⟨ha, hb⟩
          exact rowRange_disjoint hne ⟨by omega, by omega⟩ ⟨ha, by omega⟩
        rw [if_neg hC1, if_neg hC2]
        have hE1 : ¬(m.columns * r1 ≤ p ∧ p < m.columns * r1 + (k + 1)) := by
          rintro ⟨ha, hb⟩
          exact rowRange_disjoint hne ⟨ha, by omega⟩ ⟨by omega, by omega⟩
        have hE2 : m.columns * r2 ≤ p ∧ p < m.columns * r2 + (k + 1) := by omega
        rw [if_neg hE1, if_pos hE2]
        have hsub : m.columns * r1 + (p - m.columns * r2) = m.columns * r1 + k := by omega
        rw [hsub]
      · rw [if_neg (fun h => hpa2 h.1), ihh]
        by_cases hD1 : m.columns * r1 ≤ p ∧ p < m.columns * r1 + k
        · have hE1 : m.columns * r1 ≤ p ∧ p < m.columns * r1 + (k + 1) := by omega
          rw [if_pos hD1, if_pos hE1]
        · have hE1 : ¬(m.columns * r1 ≤ p ∧ p < m.columns * r1 + (k + 1)) := by omega
          rw [if_neg hD1, if_neg hE1]
          by_cases hD2 : m.columns * r2 ≤ p ∧ p < m.columns * r2 + k
          · have hE2 : m.columns * r2 ≤ p ∧ p < m.columns * r2 + (k + 1) := by omega
            rw [if_pos hD2, if_pos hE2]
          · have hE2 : ¬(m.columns * r2 ≤ p ∧ p < m.columns * r2 + (k + 1)) := by omega
            rw [if_neg hD2, if_neg hE2]

theorem exchangeRowsv_self (m : Mat) (r : ℕ) : m.exchangeRowsv r r = m := by
  have hloop : ∀ k, k ≤ m.columns → loopN (fun i d =>
      ((d.set (m.columns * r + i) (d.getD (m.columns * r + i) 0)).set
        (m.columns * r + i) ((m.getRowv r).getD i 0))) k m.data = m.data := by
    intro k
    induction k with
    | zero => intro _; rfl
    | succ k ih =>
      intro hk
      rw [loopN, ih (by omega), set_getD_self,
        getRowv_getD _ _ _ (show k < m.columns by omega), set_getD_self]
  have heq : m.exchangeRowsv r r = { m with data := loopN (fun i d =>
      ((d.set (m.columns * r + i) (d.getD (m.columns * r + i) 0)).set
        (m.columns * r + i) ((m.getRowv r).getD i 0))) m.columns m.data } := rfl
  rw [heq, hloop m.columns le_rfl]

/-- Raw `exchange_rows` swaps the two rows and leaves every other cell unchanged. -/
theorem exchangeRowsv_getv (m : Mat) (r1 r2 : ℕ) (h1 : r1 < m.rows) (h2 : r2 < m.rows)
    (hWF : m.WF) (r c : ℕ) (hr : r < m.rows) (hc : c < m.columns) :
    (m.exchangeRowsv r1 r2).getv r c =
      if r = r1 then m.getv r2 c else if r = r2 then m.getv r1 c else m.getv r c := by
  by_cases hne : r1 = r2
  · subst hne
    rw [exchangeRowsv_self]
    by_cases hr1 : r = r1 <;> simp [hr1]
  · have heq : (m.exchangeRowsv r1 r2).getv r c = (loopN (fun i d =>
        ((d.set (m.columns * r2 + i) (d.getD (m.columns * r1 + i) 0)).set
          (m.columns * r1 + i) ((m.getRowv r2).getD i 0))) m.columns m.data).getD
        (r * m.columns + c) 0 := rfl
    rw [heq, loopN_exchRows_getD m r1 r2 hne h1 h2 hWF m.columns le_rfl]
    have hrange : ∀ r' : ℕ, (m.columns * r' ≤ r * m.columns + c ∧
        r * m.columns + c < m.columns * r' + m.columns) ↔ r = r' := by
      intro r'
      constructor
      · rintro ⟨ha, hb⟩
        by_contra hner
        have hcm : r * m.columns = m.columns * r := Nat.mul_comm _ _
        exact @rowRange_disjoint m.columns r r' (r * m.columns + c)
          hner (by omega) ⟨ha, hb⟩
      · rintro rfl
        have hcm : r * m.columns = m.columns * r := Nat.mul_comm _ _
        omega
    by_cases hrr1 : r = r1
    · rw [if_pos ((hrange r1).mpr hrr1), hrr1]
      have hcm : r1 * m.columns = m.columns * r1 := Nat.mul_comm _ _
      have hsub : r1 * m.columns + c - m.columns * r1 = c := by omega
      rw [hsub, getRowv_getD _ _ _ hc, if_pos rfl, Mat.getv, Nat.mul_comm m.columns r2]
    · rw [if_neg (fun h => hrr1 ((hrange r1).mp h))]
      by_cases hrr2 : r = r2
      · rw [if_pos ((hrange r2).mpr hrr2), if_neg hrr1, if_pos hrr2, hrr2]
        have hcm : r2 * m.columns = m.columns * r2 := Nat.mul_comm _ _
        have hsub : m.columns * r1 + (r2 * m.columns + c - m.columns * r2)
            = r1 * m.columns + c := by
          rw [Nat.mul_comm m.columns r1]
          omega
        rw [hsub, Mat.getv]
      · rw [if_neg (fun h => hrr2 ((hrange r2).mp h)), if_neg hrr1, if_neg hrr2, Mat.getv]

/-! ### Pointwise characterisation of `exchange_columns` -/

theorem colIdx_eq {cols c i p : ℕ} (hc : c < cols) :
    p = c + i * cols ↔ (p % cols = c ∧ p / cols = i) := by
  have hpos : 0 < cols := by omega
  constructor
  · rintro rfl
    refine ⟨?_, ?_⟩
    · rw [Nat.add_mul_mod_self_right]
      exact Nat.mod_eq_of_lt hc
    · rw [Nat.add_mul_div_right _ _ hpos, Nat.div_eq_of_lt hc, Nat.zero_add]
  · rintro ⟨hm, hd⟩
    have hdm := Nat.div_add_mod p cols
    rw [hd, hm] at hdm
    rw [← hdm, Nat.mul_comm]
    omega

theorem loopN_exchCols_getD (m : Mat) (c1 c2 : ℕ) (hne : c1 ≠ c2) (h1 : c1 < m.columns)
    (h2 : c2 < m.columns) (hWF : m.WF) (k : ℕ) (hk : k ≤ m.rows) : ∀ p,
    (loopN (fun i d =>
      ((d.set (c2 + i * m.columns) (d.getD (c1 + i * m.columns) 0)).set
        (c1 + i * m.columns) ((m.getColumnv c2).getD i 0))) k m.data).getD p 0 =
      if p % m.columns = c1 ∧ p / m.columns < k
      then (m.getColumnv c2).getD (p / m.columns) 0
      else if p % m.columns = c2 ∧ p / m.columns < k
      then m.data.getD (c1 + (p / m.columns) * m.columns) 0
      else m.data.getD p 0 := by
  induction k with
  | zero =>
    intro p
    simp only [loopN]
    rw [if_neg (fun h => Nat.not_lt_zero _ h.2), if_neg (fun h => Nat.not_lt_zero _ h.2)]
  | succ k ih =>
    intro p
    have hkr : k < m.rows := hk
    have ihh := ih (by omega)
    have hmulk : k * m.columns + m.columns ≤ m.rows * m.columns := by
      have h := Nat.mul_le_mul_right m.columns (Nat.succ_le_of_lt hkr)
      rw [Nat.succ_mul] at h
      exact h
    have ha1len : c1 + k * m.columns < m.data.length := by
      rw [hWF]
      omega
    have ha2len : c2 + k * m.columns < m.data.length := by
      rw [hWF]
      omega
    have hLlen : (loopN (fun i d =>
        ((d.set (c2 + i * m.columns) (d.getD (c1 + i * m.columns) 0)).set
          (c1 + i * m.columns) ((m.getColumnv c2).getD i 0))) k m.data).length
        = m.data.length := loopN_data_length _ (fun i d => by simp) k m.data
    have hmd1 : (c1 + k * m.columns) % m.columns = c1 ∧
        (c1 + k * m.columns) / m.columns = k := (colIdx_eq h1).mp rfl
    rw [loopN, getD_set, List.length_set, hLlen, getD_set, hLlen]
    by_cases hpa1 : c1 + k * m.columns = p
    · have hp := (colIdx_eq h1).mp hpa1.symm
      rw [if_pos ⟨hpa1, by omega⟩]
      have hE1 : p % m.columns = c1 ∧ p / m.columns < k + 1 := by omega
      rw [if_pos hE1, hp.2]
    · rw [if_neg (fun h => hpa1 h.1)]
      by_cases hpa2 : c2 + k * m.columns = p
      · have hp := (colIdx_eq h2).mp hpa2.symm
        rw [if_pos ⟨hpa2, by omega⟩, ihh]
        have hC1 : ¬((c1 + k * m.columns) % m.columns = c1 ∧
            (c1 + k * m.columns) / m.columns < k) := by omega
        have hC2 : ¬((c1 + k * m.columns) % m.columns = c2 ∧
            (c1 + k * m.columns) / m.columns < k) := by omega
        rw [if_neg hC1, if_neg hC2]
        have hE1 : ¬(p % m.columns = c1 ∧ p / m.columns < k + 1) := by omega
        have hE2 : p % m.columns = c2 ∧ p / m.columns < k + 1 := by omega
        rw [if_neg hE1, if_pos hE2, hp.2]
      · have hiff1 : ¬(p % m.columns = c1 ∧ p / m.columns = k) :=
          fun h => hpa1 ((colIdx_eq h1).mpr h).symm
        have hiff2 : ¬(p % m.columns = c2 ∧ p / m.columns = k) :=
          fun h => hpa2 ((colIdx_eq h2).mpr h).symm
        rw [if_neg (fun h => hpa2 h.1), ihh]
        by_cases hD1 : p % m.columns = c1 ∧ p / m.columns < k
        · rw [if_pos hD1, if_pos (show p % m.columns = c1 ∧ p / m.columns < k + 1 by omega)]
        · rw [if_neg hD1,
            if_neg (show ¬(p % m.columns = c1 ∧ p / m.columns < k + 1) by omega)]
          by_cases hD2 : p % m.columns = c2 ∧ p / m.columns < k
          · rw [if_pos hD2,
              if_pos (show p % m.columns = c2 ∧ p / m.columns < k + 1 by omega)]
          · rw [if_neg hD2,
              if_neg (show ¬(p % m.columns = c2 ∧ p / m.columns < k + 1) by omega)]

theorem exchangeColumnsv_self (m : Mat) (c : ℕ) : m.exchangeColumnsv c c = m := by
  have hloop : ∀ k, k ≤ m.rows → loopN (fun i d =>
      ((d.set (c + i * m.columns) (d.getD (c + i * m.columns) 0)).set
        (c + i * m.columns) ((m.getColumnv c).getD i 0))) k m.data = m.data := by
    intro k
    induction k with
    | zero => intro _; rfl
    | succ k ih =>
      intro hk
      have hcomm : k * m.columns + c = c + k * m.columns := Nat.add_comm _ _
      rw [loopN, ih (by omega), set_getD_self,
        getColumnv_getD _ _ _ (show k < m.rows by omega), hcomm, set_getD_self]
  have heq : m.exchangeColumnsv c c = { m with data := loopN (fun i d =>
      ((d.set (c + i * m.columns) (d.getD (c + i * m.columns) 0)).set
        (c + i * m.columns) ((m.getColumnv c).getD i 0))) m.rows m.data } := rfl
  rw [heq, hloop m.rows le_rfl]

/-- Raw `exchange_columns` swaps the two columns and leaves every other cell unchanged. -/
theorem exchangeColumnsv_getv (m : Mat) (c1 c2 : ℕ) (h1 : c1 < m.columns)
    (h2 : c2 < m.columns) (hWF : m.WF) (r c : ℕ) (hr : r < m.rows) (hc : c < m.columns) :
    (m.exchangeColumnsv c1 c2).getv r c =
      if c = c1 then m.getv r c2 else if c = c2 then m.getv r c1 else m.getv r c := by
  by_cases hne : c1 = c2
  · subst hne
    rw [exchangeColumnsv_self]
    by_cases hc1 : c = c1 <;> simp [hc1]
  · have heq : (m.exchangeColumnsv c1 c2).getv r c = (loopN (fun i d =>
        ((d.set (c2 + i * m.columns) (d.getD (c1 + i * m.columns) 0)).set
          (c1 + i * m.columns) ((m.getColumnv c2).getD i 0))) m.rows m.data).getD
        (r * m.columns + c) 0 := rfl
    have hp : (r * m.columns + c) % m.columns = c ∧ (r * m.columns + c) / m.columns = r :=
      (colIdx_eq hc).mp (by omega)
    rw [heq, loopN_exchCols_getD m c1 c2 hne h1 h2 hWF m.rows le_rfl]
    by_cases hcc1 : c = c1
    · rw [if_pos (show (r * m.columns + c) % m.columns = c1 ∧
          (r * m.columns + c) / m.columns < m.rows by omega), hp.2,
        getColumnv_getD _ _ _ hr, if_pos hcc1, Mat.getv]
    · rw [if_neg (show ¬((r * m.columns + c) % m.columns = c1 ∧
          (r * m.columns + c) / m.columns < m.rows) by omega), if_neg hcc1]
      by_cases hcc2 : c = c2
      · rw [if_pos (show (r * m.columns + c) % m.columns = c2 ∧
            (r * m.columns + c) / m.columns < m.rows by omega), hp.2, if_pos hcc2,
          Mat.getv, Nat.add_comm c1 (r * m.columns)]
      · rw [if_neg (show ¬((r * m.columns + c) % m.columns = c2 ∧
            (r * m.columns + c) / m.columns < m.rows) by omega), if_neg hcc2, Mat.getv]

/-! ### Sums, products and block indexing -/

theorem foldl_add_range (h : ℕ → ℚ) (n : ℕ) :
    List.foldl (fun acc x => acc + h x) 0 (List.range n) = ∑ j ∈ Finset.range n, h j := by
  induction n with
  | zero => simp
  | succ n ih => simp [List.range_succ, List.foldl_append, ih, Finset.sum_range_succ]

theorem dotAcc_eq_sum (f g : ℕ → ℚ) (n : ℕ) :
    dotAcc ((List.range n).map f) ((List.range n).map g)
      = ∑ j ∈ Finset.range n, f j * g j := by
  rw [dotAcc, List.zip_map', List.foldl_map]
  exact foldl_add_range (fun x => f x * g x) n

theorem prod_map_range (f : ℕ → ℚ) (n : ℕ) :
    ((List.range n).map f).prod = ∏ j ∈ Finset.range n, f j := by
  induction n with
  | zero => simp
  | succ n ih => simp [List.range_succ, ih, Finset.prod_range_succ]

theorem flatMap_blocks_length (F : ℕ → List ℚ) (C : ℕ) (hF : ∀ i, (F i).length = C) :
    ∀ R, ((List.range R).flatMap F).length = R * C := by
  intro R
  induction R with
  | zero => simp
  | succ R ih =>
    rw [List.range_succ, List.flatMap_append]
    simp [ih, hF, Nat.succ_mul]

theorem flatMap_blocks_getD (F : ℕ → List ℚ) (C : ℕ) (hF : ∀ i, (F i).length = C) :
    ∀ R i k, i < R → k < C →
      ((List.range R).flatMap F).getD (i * C + k) 0 = (F i).getD k 0 := by
  intro R
  induction R with
  | zero => intro i k hi; omega
  | succ R ih =>
    intro i k hi hk
    rw [List.range_succ, List.flatMap_append]
    rcases Nat.lt_or_ge i R with hiR | hiR
    · rw [List.getD_append]
      · exact ih i k hiR hk
      · rw [flatMap_blocks_length F C hF R]
        calc i * C + k < i * C + C := by omega
          _ = (i + 1) * C := (Nat.succ_mul i C).symm
          _ ≤ R * C := Nat.mul_le_mul_right _ hiR
    · have hiR2 : i = R := by omega
      subst hiR2
      rw [List.getD_append_right]
      · rw [flatMap_blocks_length F C hF i]
        have hsub : i * C + k - i * C = k := by omega
        simp [hsub]
      · rw [flatMap_blocks_length F C hF i]
        omega

/-! ### The pivot searches -/

theorem findRowPivot_none (trig : Mat) (i : ℕ) : ∀ fuel x,
    (∀ y, x ≤ y → y < x + fuel → trig.getv y i = 0) →
    findRowPivot trig i x fuel = none := by
  intro fuel
  induction fuel with
  | zero => intro x _; rfl
  | succ fuel ih =>
    intro x h
    rw [findRowPivot, if_neg (not_not_intro (h x le_rfl (by omega)))]
    exact ih (x + 1) fun y hy1 hy2 => h y (by omega) (by omega)

theorem findColPivot_none (trig : Mat) (i : ℕ) : ∀ fuel x,
    (∀ y, x ≤ y → y < x + fuel → trig.getv i y = 0) →
    findColPivot trig i x fuel = none := by
  intro fuel
  induction fuel with
  | zero => intro x _; rfl
  | succ fuel ih =>
    intro x h
    rw [findColPivot, if_neg (not_not_intro (h x le_rfl (by omega)))]
    exact ih (x + 1) fun y hy1 hy2 => h y (by omega) (by omega)

theorem findRowPivot_some (trig : Mat) (i : ℕ) : ∀ fuel x r,
    findRowPivot trig i x fuel = some r →
    x ≤ r ∧ r < x + fuel ∧ trig.getv r i ≠ 0 := by
  intro fuel
  induction fuel with
  | zero => intro x r h; exact absurd h (by simp [findRowPivot])
  | succ fuel ih =>
    intro x r h
    rw [findRowPivot] at h
    by_cases hx : trig.getv x i ≠ 0
    · rw [if_pos hx] at h
      cases h
      exact ⟨le_rfl, by omega, hx⟩
    · rw [if_neg hx] at h
      obtain ⟨h1, h2, h3⟩ := ih (x + 1) r h
      exact ⟨by omega, by omega, h3⟩

theorem findColPivot_some (trig : Mat) (i : ℕ) : ∀ fuel x r,
    findColPivot trig i x fuel = some r →
    x ≤ r ∧ r < x + fuel ∧ trig.getv i r ≠ 0 := by
  intro fuel
  induction fuel with
  | zero => intro x r h; exact absurd h (by simp [findColPivot])
  | succ fuel ih =>
    intro x r h
    rw [findColPivot] at h
    by_cases hx : trig.getv i x ≠ 0
    · rw [if_pos hx] at h
      cases h
      exact ⟨le_rfl, by omega, hx⟩
    · rw [if_neg hx] at h
      obtain ⟨h1, h2, h3⟩ := ih (x + 1) r h
      exact ⟨by omega, by omega, h3⟩

/-! ### Structure equality helpers -/

theorem mat_eq_of_fields {a b : Mat} (h1 : a.rows = b.rows) (h2 : a.columns = b.columns)
    (h3 : a.data = b.data) : a = b := by
  cases a
  cases b
  cases h1
  cases h2
  cases h3
  rfl

theorem data_eq_of_getD {l1 l2 : List ℚ} (hlen : l1.length = l2.length)
    (h : ∀ p, p < l1.length → l1.getD p 0 = l2.getD p 0) : l1 = l2 := by
  apply List.ext_getElem hlen
  intro p h1 h2
  have hp := h p h1
  rwa [List.getD_eq_getElem _ _ h1, List.getD_eq_getElem _ _ h2] at hp

/-! ### Reduction lemmas for the pivot-step phases -/

theorem rowPhase_nonzero (srows i : ℕ) (trig : Mat) (sign pivot : ℚ) (hp : pivot ≠ 0) :
    rowPhase srows i (trig, sign, pivot) = (trig, sign, pivot) := by
  rw [rowPhase, if_neg hp]

theorem rowPhase_none (srows i : ℕ) (trig : Mat) (sign pivot : ℚ) (hp : pivot = 0)
    (h : findRowPivot trig i (i + 1) (srows - (i + 1)) = none) :
    rowPhase srows i (trig, sign, pivot) = (trig, sign, pivot) := by
  rw [rowPhase, if_pos hp, h]

theorem rowPhase_found (srows i : ℕ) (trig : Mat) (sign pivot : ℚ) (hp : pivot = 0)
    (x : ℕ) (h : findRowPivot trig i (i + 1) (srows - (i + 1)) = some x) :
    rowPhase srows i (trig, sign, pivot) =
      (trig.exchangeRowsv x i, -sign, (trig.exchangeRowsv x i).getv i i) := by
  rw [rowPhase, if_pos hp, h]

theorem colPhase_nonzero (scols i : ℕ) (trig : Mat) (sign pivot : ℚ) (hp : pivot ≠ 0) :
    colPhase scols i (trig, sign, pivot) = (trig, sign, pivot) := by
  rw [colPhase, if_neg hp]

theorem colPhase_none (scols i : ℕ) (trig : Mat) (sign pivot : ℚ) (hp : pivot = 0)
    (h : findColPivot trig i (i + 1) (scols - (i + 1)) = none) :
    colPhase scols i (trig, sign, pivot) = (trig, sign, pivot) := by
  rw [colPhase, if_pos hp, h]

theorem colPhase_found (scols i : ℕ) (trig : Mat) (sign pivot : ℚ) (hp : pivot = 0)
    (x : ℕ) (h : findColPivot trig i (i + 1) (scols - (i + 1)) = some x) :
    colPhase scols i (trig, sign, pivot) =
      (trig.exchangeColumnsv i x, -sign, (trig.exchangeColumnsv i x).getv i i) := by
  rw [colPhase, if_pos hp, h]

/-- One unfolding of the pivot loop, with the two phases still folded. -/
theorem detGo_succ (srows scols i fuel : ℕ) (trig : Mat) (sign : ℚ) :
    detGo srows scols i (fuel + 1) trig sign =
      match colPhase scols i (rowPhase srows i (trig, sign, trig.getv i i)) with
      | (trig2, sign2, pivot2) =>
        if pivot2 = 0 then 0
        else detGo srows scols (i + 1) fuel
          (elimLoop i pivot2 (i + 1) (trig2.rows - (i + 1)) trig2) sign2 := rfl

/-- C2 core: a doubly-failed pivot search at step `i` makes the loop return `0`
at once, whatever the remaining fuel, the rest of the matrix, or the sign. -/
theorem detGo_early_zero (srows scols i fuel : ℕ) (trig : Mat) (sign : ℚ)
    (hpiv : trig.getv i i = 0)
    (hrow : ∀ x, i + 1 ≤ x → x < srows → trig.getv x i = 0)
    (hcol : ∀ x, i + 1 ≤ x → x < scols → trig.getv i x = 0) :
    detGo srows scols i (fuel + 1) trig sign = 0 := by
  have hr : findRowPivot trig i (i + 1) (srows - (i + 1)) = none :=
    findRowPivot_none _ _ _ _ fun y hy1 hy2 => hrow y hy1 (by omega)
  have hc2 : findColPivot trig i (i + 1) (scols - (i + 1)) = none :=
    findColPivot_none _ _ _ _ fun y hy1 hy2 => hcol y hy1 (by omega)
  rw [detGo_succ, rowPhase_none _ _ _ _ _ hpiv hr, colPhase_none _ _ _ _ _ hpiv hc2]
  exact if_pos hpiv

/-- C2: when at pivot index `i` the diagonal entry is zero and both the
row search over `i+1..srows` and the column search over `i+1..scols` come up
empty, the determinant loop returns the additive identity immediately — and on
any square matrix `get_determinant` delivers its loop value as a normal
`Except.ok` success, never an error. -/
theorem singular_pivot_returns_zero (srows scols i fuel : ℕ) (trig : Mat) (sign : ℚ)
    (hpiv : trig.getv i i = 0)
    (hrow : ∀ x, i + 1 ≤ x → x < srows → trig.getv x i = 0)
    (hcol : ∀ x, i + 1 ≤ x → x < scols → trig.getv i x = 0) :
    detGo srows scols i (fuel + 1) trig sign = 0 ∧
      ∀ m : Mat, m.rows = m.columns →
        m.get_determinant = Except.ok
          (detGo m.rows m.columns 0 m.columns ⟨m.rows, m.columns, m.data⟩ 1) := by
  refine ⟨detGo_early_zero srows scols i fuel trig sign hpiv hrow hcol, ?_⟩
  intro m hsq
  rw [Mat.get_determinant, if_neg (by omega)]

/-- Witness for C2 on the 2×2 zero matrix at pivot index 0 with sign 5. -/
theorem singular_pivot_returns_zero_witness :
    detGo 2 2 0 2 ⟨2, 2, [0, 0, 0, 0]⟩ 5 = 0 ∧
      ∀ m : Mat, m.rows = m.columns →
        m.get_determinant = Except.ok
          (detGo m.rows m.columns 0 m.columns ⟨m.rows, m.columns, m.data⟩ 1) :=
  singular_pivot_returns_zero 2 2 0 1 ⟨2, 2, [0, 0, 0, 0]⟩ 5 rfl
    (fun x h1 h2 => by
      have hx : x = 1 := by omega
      subst hx
      rfl)
    (fun x h1 h2 => by
      have hx : x = 1 := by omega
      subst hx
      rfl)

/-- C3: `get_determinant` hands back the receiver it was given — all writes of
the elimination go to the private working copy — and its scalar result is
exactly `get_determinant`'s. -/
theorem get_determinant_preserves_receiver (m : Mat) (q : ℚ) (mfinal : Mat)
    (h : m.get_determinant_frame = Except.ok (q, mfinal)) :
    mfinal = m ∧ m.get_determinant = Except.ok q := by
  rw [Mat.get_determinant_frame] at h
  by_cases hs : m.rows ≠ m.columns
  · rw [if_pos hs] at h
    cases h
  · rw [if_neg hs] at h
    injection h with h2
    have h3 := congrArg Prod.fst h2
    have h4 := congrArg Prod.snd h2
    simp only at h3 h4
    exact ⟨h4.symm, by rw [Mat.get_determinant, if_neg hs, h3]⟩

/-- Witness for C3 on the 2×2 matrix `[[2,3],[4,5]]`. -/
theorem get_determinant_preserves_receiver_witness :
    (⟨2, 2, [2, 3, 4, 5]⟩ : Mat) = ⟨2, 2, [2, 3, 4, 5]⟩ ∧
      Mat.get_determinant ⟨2, 2, [2, 3, 4, 5]⟩ = Except.ok (-2) :=
  get_determinant_preserves_receiver ⟨2, 2, [2, 3, 4, 5]⟩ (-2) ⟨2, 2, [2, 3, 4, 5]⟩
    (by norm_num [Mat.get_determinant_frame, detGo, rowPhase, colPhase, findRowPivot,
      findColPivot, elimLoop, Mat.getv, Mat.setv, Mat.setRowv, Mat.getRowv, Mat.getDiagonalv,
      loopN, List.range_succ])

/-- C4: `add` and `sub` fail with `sizeMismatch` exactly when the two operands
have different total cell counts; with equal counts they succeed elementwise —
even across different shapes — and the result carries the left operand's
declared row and column counts. -/
theorem add_sub_length_check (a b : Mat) (ha : a.WF) (hb : b.WF) :
    (a.add b = Except.error MatrixError.sizeMismatch ↔
      a.rows * a.columns ≠ b.rows * b.columns) ∧
    (a.sub b = Except.error MatrixError.sizeMismatch ↔
      a.rows * a.columns ≠ b.rows * b.columns) ∧
    (a.rows * a.columns = b.rows * b.columns →
      ∃ s d : Mat, a.add b = Except.ok s ∧ a.sub b = Except.ok d ∧
        s.rows = a.rows ∧ s.columns = a.columns ∧ d.rows = a.rows ∧ d.columns = a.columns ∧
        ∀ p, p < a.data.length →
          s.data.getD p 0 = a.data.getD p 0 + b.data.getD p 0 ∧
          d.data.getD p 0 = a.data.getD p 0 - b.data.getD p 0) := by
  have ha' : a.data.length = a.rows * a.columns := ha
  have hb' : b.data.length = b.rows * b.columns := hb
  refine ⟨?_, ?_, ?_⟩
  · rw [Mat.add]
    by_cases h : a.data.length ≠ b.data.length
    · rw [if_pos h]
      exact iff_of_true rfl (by omega)
    · rw [if_neg h]
      exact iff_of_false (by simp) (by omega)
  · rw [Mat.sub]
    by_cases h : a.data.length ≠ b.data.length
    · rw [if_pos h]
      exact iff_of_true rfl (by omega)
    · rw [if_neg h]
      exact iff_of_false (by simp) (by omega)
  · intro h
    have hlen : a.data.length = b.data.length := by omega
    refine ⟨⟨a.rows, a.columns,
        (List.range a.data.length).map fun i => a.data.getD i 0 + b.data.getD i 0⟩,
      ⟨a.rows, a.columns,
        (List.range a.data.length).map fun i => a.data.getD i 0 - b.data.getD i 0⟩,
      by rw [Mat.add, if_neg (by omega)], by rw [Mat.sub, if_neg (by omega)],
      rfl, rfl, rfl, rfl, ?_⟩
    intro p hp
    constructor
    · exact getD_map_range (fun i => a.data.getD i 0 + b.data.getD i 0) a.data.length p hp
    · exact getD_map_range (fun i => a.data.getD i 0 - b.data.getD i 0) a.data.length p hp

/-- Witness for C4 with the shape-conflating pair `2×3` and `3×2`. -/
theorem add_sub_length_check_witness :
    ((Mat.add ⟨2, 3, [1, 2, 3, 4, 5, 6]⟩ ⟨3, 2, [1, 1, 1, 1, 1, 1]⟩
        = Except.error MatrixError.sizeMismatch ↔ 2 * 3 ≠ 3 * 2) ∧
      (Mat.sub ⟨2, 3, [1, 2, 3, 4, 5, 6]⟩ ⟨3, 2, [1, 1, 1, 1, 1, 1]⟩
        = Except.error MatrixError.sizeMismatch ↔ 2 * 3 ≠ 3 * 2) ∧
      (2 * 3 = 3 * 2 →
        ∃ s d : Mat,
          Mat.add ⟨2, 3, [1, 2, 3, 4, 5, 6]⟩ ⟨3, 2, [1, 1, 1, 1, 1, 1]⟩ = Except.ok s ∧
          Mat.sub ⟨2, 3, [1, 2, 3, 4, 5, 6]⟩ ⟨3, 2, [1, 1, 1, 1, 1, 1]⟩ = Except.ok d ∧
          s.rows = 2 ∧ s.columns = 3 ∧ d.rows = 2 ∧ d.columns = 3 ∧
          ∀ p, p < (List.length [(1 : ℚ), 2, 3, 4, 5, 6]) →
            s.data.getD p 0 = ([(1 : ℚ), 2, 3, 4, 5, 6].getD p 0) +
              ([(1 : ℚ), 1, 1, 1, 1, 1].getD p 0) ∧
            d.data.getD p 0 = ([(1 : ℚ), 2, 3, 4, 5, 6].getD p 0) -
              ([(1 : ℚ), 1, 1, 1, 1, 1].getD p 0))) :=
  add_sub_length_check ⟨2, 3, [1, 2, 3, 4, 5, 6]⟩ ⟨3, 2, [1, 1, 1, 1, 1, 1]⟩ rfl rfl

/-- C5: `mul` fails with `dimensionMismatch` exactly when the inner dimensions
disagree; otherwise the result is `a.rows × b.columns` with cell `(i,k)` the
dot product of row `i` of `a` and column `k` of `b`. -/
theorem mul_spec (a b : Mat) (ha : a.WF) (hb : b.WF) :
    (a.mul b = Except.error MatrixError.dimensionMismatch ↔ a.columns ≠ b.rows) ∧
    (a.columns = b.rows → ∃ c : Mat, a.mul b = Except.ok c ∧ c.WF ∧
      c.rows = a.rows ∧ c.columns = b.columns ∧
      ∀ i k, i < a.rows → k < b.columns →
        c.getv i k = ∑ j ∈ Finset.range a.columns, a.getv i j * b.getv j k) := by
  constructor
  · rw [Mat.mul]
    by_cases h : a.columns ≠ b.rows
    · rw [if_pos h]
      exact iff_of_true rfl h
    · rw [if_neg h]
      exact iff_of_false (by simp) h
  · intro hab
    have hblocks : ∀ i, ((List.range b.columns).map
        fun k => dotAcc (a.getRowv i) (b.getColumnv k)).length = b.columns := by
      intro i
      simp
    refine ⟨⟨a.rows, b.columns, (List.range a.rows).flatMap fun i =>
        (List.range b.columns).map fun k => dotAcc (a.getRowv i) (b.getColumnv k)⟩,
      by rw [Mat.mul, if_neg (by omega)], ?_, rfl, rfl, ?_⟩
    · show (_ : List ℚ).length = a.rows * b.columns
      exact flatMap_blocks_length _ b.columns hblocks a.rows
    · intro i k hi hk
      show ((List.range a.rows).flatMap fun i => (List.range b.columns).map
          fun k => dotAcc (a.getRowv i) (b.getColumnv k)).getD (i * b.columns + k) 0 = _
      rw [flatMap_blocks_getD _ b.columns hblocks a.rows i k hi hk,
        getD_map_range _ _ _ hk, Mat.getRowv, Mat.getColumnv, ← hab, dotAcc_eq_sum]
      refine Finset.sum_congr rfl fun j hj => ?_
      rw [Mat.getv, Mat.getv, Nat.mul_comm a.columns i]

/-- Witness for C5 on a 2×2 product. -/
theorem mul_spec_witness :
    ((Mat.mul ⟨2, 2, [1, 2, 3, 4]⟩ ⟨2, 2, [5, 6, 7, 8]⟩
        = Except.error MatrixError.dimensionMismatch ↔ (2 : ℕ) ≠ 2) ∧
      ((2 : ℕ) = 2 → ∃ c : Mat,
        Mat.mul ⟨2, 2, [1, 2, 3, 4]⟩ ⟨2, 2, [5, 6, 7, 8]⟩ = Except.ok c ∧ c.WF ∧
        c.rows = 2 ∧ c.columns = 2 ∧
        ∀ i k, i < 2 → k < 2 →
          c.getv i k = ∑ j ∈ Finset.range 2,
            (Mat.getv ⟨2, 2, [1, 2, 3, 4]⟩ i j) * (Mat.getv ⟨2, 2, [5, 6, 7, 8]⟩ j k))) :=
  mul_spec ⟨2, 2, [1, 2, 3, 4]⟩ ⟨2, 2, [5, 6, 7, 8]⟩ rfl rfl

/-- C7: `get` reads linear index `r*columns + c`, and the row/column accessors
agree with it cellwise, with the documented lengths. -/
theorem accessors_agree (m : Mat) (r c : ℕ) (hr : r < m.rows) (hc : c < m.columns) :
    m.get r c = Except.ok (m.data.getD (r * m.columns + c) 0) ∧
    m.get_row r = Except.ok (m.getRowv r) ∧
    (m.getRowv r).length = m.columns ∧
    (m.getRowv r).getD c 0 = m.getv r c ∧
    m.get_column c = Except.ok (m.getColumnv c) ∧
    (m.getColumnv c).length = m.rows ∧
    (m.getColumnv c).getD r 0 = m.getv r c := by
  refine ⟨by rw [Mat.get, if_neg (by omega)]; rfl,
    by rw [Mat.get_row, if_neg (by omega)],
    by simp [Mat.getRowv],
    ?_,
    by rw [Mat.get_column, if_neg (by omega)],
    by simp [Mat.getColumnv],
    ?_⟩
  · rw [getRowv_getD _ _ _ hc, Mat.getv, Nat.mul_comm]
  · rw [getColumnv_getD _ _ _ hr, Mat.getv]

/-- Witness for C7 at cell (1,2) of a 2×3 matrix. -/
theorem accessors_agree_witness :
    Mat.get ⟨2, 3, [1, 2, 3, 4, 5, 6]⟩ 1 2
        = Except.ok (List.getD [(1 : ℚ), 2, 3, 4, 5, 6] (1 * 3 + 2) 0) ∧
    Mat.get_row ⟨2, 3, [1, 2, 3, 4, 5, 6]⟩ 1
        = Except.ok (Mat.getRowv ⟨2, 3, [1, 2, 3, 4, 5, 6]⟩ 1) ∧
    (Mat.getRowv ⟨2, 3, [1, 2, 3, 4, 5, 6]⟩ 1).length = 3 ∧
    (Mat.getRowv ⟨2, 3, [1, 2, 3, 4, 5, 6]⟩ 1).getD 2 0
        = Mat.getv ⟨2, 3, [1, 2, 3, 4, 5, 6]⟩ 1 2 ∧
    Mat.get_column ⟨2, 3, [1, 2, 3, 4, 5, 6]⟩ 2
        = Except.ok (Mat.getColumnv ⟨2, 3, [1, 2, 3, 4, 5, 6]⟩ 2) ∧
    (Mat.getColumnv ⟨2, 3, [1, 2, 3, 4, 5, 6]⟩ 2).length = 2 ∧
    (Mat.getColumnv ⟨2, 3, [1, 2, 3, 4, 5, 6]⟩ 2).getD 1 0
        = Mat.getv ⟨2, 3, [1, 2, 3, 4, 5, 6]⟩ 1 2 :=
  accessors_agree ⟨2, 3, [1, 2, 3, 4, 5, 6]⟩ 1 2 (by decide) (by decide)

/-- C10: the constructor is total — zero row or column counts included, with
empty backing data — and the determinant of the 0×0 matrix is the
multiplicative identity (the empty diagonal product), not zero. -/
theorem new_total_zero_sized (rows columns : ℕ) (d : ℚ) :
    (Mat.new rows columns d).WF ∧
    (Mat.new 0 columns d).data = [] ∧
    (Mat.new rows 0 d).data = [] ∧
    Mat.get_determinant (Mat.new 0 0 d) = Except.ok 1 := by
  refine ⟨by simp [Mat.new, Mat.WF], by simp [Mat.new], by simp [Mat.new], ?_⟩
  show Mat.get_determinant ⟨0, 0, List.replicate (0 * 0) d⟩ = Except.ok 1
  norm_num [Mat.get_determinant, detGo, Mat.getDiagonalv]

theorem getv_eq_data (m : Mat) (r c : ℕ) :
    m.getv r c = m.data.getD (r * m.columns + c) 0 := rfl

/-- C6: every matrix the public interface produces satisfies
`data.length = rows * columns`; each operation that returns a matrix preserves
the invariant (an operation that fails returns an error and no matrix at all,
so nothing is mutated). `get_determinant` returns a scalar, not a matrix. -/
theorem wf_invariant_preserved :
    (∀ (rows columns : ℕ) (d : ℚ), (Mat.new rows columns d).WF) ∧
    (∀ (m : Mat) (r c : ℕ) (v : ℚ) (m' : Mat),
      m.WF → m.set r c v = Except.ok m' → m'.WF) ∧
    (∀ (m : Mat) (r : ℕ) (v : List ℚ) (m' : Mat),
      m.WF → m.set_row r v = Except.ok m' → m'.WF) ∧
    (∀ (m : Mat) (c : ℕ) (v : List ℚ) (m' : Mat),
      m.WF → m.set_column c v = Except.ok m' → m'.WF) ∧
    (∀ (m : Mat) (r1 r2 : ℕ) (m' : Mat),
      m.WF → m.exchange_rows r1 r2 = Except.ok m' → m'.WF) ∧
    (∀ (m : Mat) (c1 c2 : ℕ) (m' : Mat),
      m.WF → m.exchange_columns c1 c2 = Except.ok m' → m'.WF) ∧
    (∀ (a b m' : Mat), a.WF → a.add b = Except.ok m' → m'.WF) ∧
    (∀ (a b m' : Mat), a.WF → a.sub b = Except.ok m' → m'.WF) ∧
    (∀ (a b m' : Mat), a.mul b = Except.ok m' → m'.WF) := by
  refine ⟨?_, ?_, ?_, ?_, ?_, ?_, ?_, ?_, ?_⟩
  · intro rows columns d
    simp [Mat.new, Mat.WF]
  · intro m r c v m' hWF h
    rw [Mat.set] at h
    by_cases hb : r ≥ m.rows ∨ c ≥ m.columns
    · rw [if_pos hb] at h
      cases h
    · rw [if_neg hb] at h
      injection h with h
      subst h
      have hf := setv_fields m r c v
      show (m.setv r c v).data.length = (m.setv r c v).rows * (m.setv r c v).columns
      rw [hf.1, hf.2.1, hf.2.2]
      exact hWF
  · intro m r v m' hWF h
    rw [Mat.set_row] at h
    by_cases hb : r ≥ m.rows
    · rw [if_pos hb] at h
      cases h
    · rw [if_neg hb] at h
      by_cases hv : v.length ≠ m.columns
      · rw [if_pos hv] at h
        cases h
      · rw [if_neg hv] at h
        injection h with h
        subst h
        have hf := setRowv_fields m r v
        show (m.setRowv r v).data.length = (m.setRowv r v).rows * (m.setRowv r v).columns
        rw [hf.1, hf.2.1, hf.2.2]
        exact hWF
  · intro m c v m' hWF h
    rw [Mat.set_column] at h
    by_cases hb : c ≥ m.columns
    · rw [if_pos hb] at h
      cases h
    · rw [if_neg hb] at h
      by_cases hv : v.length ≠ m.rows
      · rw [if_pos hv] at h
        cases h
      · rw [if_neg hv] at h
        injection h with h
        subst h
        have hf := setColumnv_fields m c v
        show (m.setColumnv c v).data.length
          = (m.setColumnv c v).rows * (m.setColumnv c v).columns
        rw [hf.1, hf.2.1, hf.2.2]
        exact hWF
  · intro m r1 r2 m' hWF h
    rw [Mat.exchange_rows] at h
    by_cases hb : r1 ≥ m.rows ∨ r2 ≥ m.rows
    · rw [if_pos hb] at h
      cases h
    · rw [if_neg hb] at h
      injection h with h
      subst h
      have hf := exchangeRowsv_fields m r1 r2
      show (m.exchangeRowsv r1 r2).data.length
        = (m.exchangeRowsv r1 r2).rows * (m.exchangeRowsv r1 r2).columns
      rw [hf.1, hf.2.1, hf.2.2]
      exact hWF
  · intro m c1 c2 m' hWF h
    rw [Mat.exchange_columns] at h
    by_cases hb : c1 ≥ m.columns ∨ c2 ≥ m.columns
    · rw [if_pos hb] at h
      cases h
    · rw [if_neg hb] at h
      injection h with h
      subst h
      have hf := exchangeColumnsv_fields m c1 c2
      show (m.exchangeColumnsv c1 c2).data.length
        = (m.exchangeColumnsv c1 c2).rows * (m.exchangeColumnsv c1 c2).columns
      rw [hf.1, hf.2.1, hf.2.2]
      exact hWF
  · intro a b m' hWF h
    rw [Mat.add] at h
    by_cases hl : a.data.length ≠ b.data.length
    · rw [if_pos hl] at h
      cases h
    · rw [if_neg hl] at h
      injection h with h
      subst h
      show (_ : List ℚ).length = a.rows * a.columns
      rw [List.length_map, List.length_range]
      exact hWF
  · intro a b m' hWF h
    rw [Mat.sub] at h
    by_cases hl : a.data.length ≠ b.data.length
    · rw [if_pos hl] at h
      cases h
    · rw [if_neg hl] at h
      injection h with h
      subst h
      show (_ : List ℚ).length = a.rows * a.columns
      rw [List.length_map, List.length_range]
      exact hWF
  · intro a b m' h
    rw [Mat.mul] at h
    by_cases hl : a.columns ≠ b.rows
    · rw [if_pos hl] at h
      cases h
    · rw [if_neg hl] at h
      injection h with h
      subst h
      show (_ : List ℚ).length = a.rows * b.columns
      exact flatMap_blocks_length _ b.columns (fun i => by simp) a.rows

/-- Witness for C6: a concrete `set` on a well-formed 2×2 matrix. -/
theorem wf_invariant_preserved_witness : (⟨2, 2, [1, 9, 3, 4]⟩ : Mat).WF :=
  wf_invariant_preserved.2.1 ⟨2, 2, [1, 2, 3, 4]⟩ 0 1 9 ⟨2, 2, [1, 9, 3, 4]⟩ rfl (by decide)

theorem exchangeRowsv_involutive (m : Mat) (r1 r2 : ℕ) (h1 : r1 < m.rows)
    (h2 : r2 < m.rows) (hWF : m.WF) :
    (m.exchangeRowsv r1 r2).exchangeRowsv r1 r2 = m := by
  have hf1 := exchangeRowsv_fields m r1 r2
  have he1WF : (m.exchangeRowsv r1 r2).WF := by
    show (m.exchangeRowsv r1 r2).data.length = _
    rw [hf1.1, hf1.2.1, hf1.2.2]
    exact hWF
  have hf2 := exchangeRowsv_fields (m.exchangeRowsv r1 r2) r1 r2
  apply mat_eq_of_fields
  · rw [hf2.1, hf1.1]
  · rw [hf2.2.1, hf1.2.1]
  · apply data_eq_of_getD
    · rw [hf2.2.2, hf1.2.2]
    · intro p hp
      rw [hf2.2.2, hf1.2.2] at hp
      have hc0 : 0 < m.columns := by
        rcases Nat.eq_zero_or_pos m.columns with h0 | h0
        · rw [hWF, h0, Nat.mul_zero] at hp
          omega
        · exact h0
      have hcc : p % m.columns < m.columns := Nat.mod_lt _ hc0
      have hrr : p / m.columns < m.rows := by
        rw [Nat.div_lt_iff_lt_mul hc0]
        rw [hWF] at hp
        calc p < m.rows * m.columns := hp
          _ = m.rows * m.columns := rfl
      have hpdecomp : p = (p / m.columns) * m.columns + p % m.columns := by
        have hdm := Nat.div_add_mod p m.columns
        have hcm : m.columns * (p / m.columns) = (p / m.columns) * m.columns :=
          Nat.mul_comm _ _
        omega
      have hlhs : ((m.exchangeRowsv r1 r2).exchangeRowsv r1 r2).data.getD p 0
          = ((m.exchangeRowsv r1 r2).exchangeRowsv r1 r2).getv (p / m.columns)
              (p % m.columns) := by
        rw [getv_eq_data, hf2.2.1, hf1.2.1, ← hpdecomp]
      have hrhs : m.data.getD p 0 = m.getv (p / m.columns) (p % m.columns) := by
        rw [getv_eq_data, ← hpdecomp]
      rw [hlhs, hrhs]
      rw [exchangeRowsv_getv (m.exchangeRowsv r1 r2) r1 r2
        (by rw [hf1.1]; exact h1) (by rw [hf1.1]; exact h2) he1WF _ _
        (by rw [hf1.1]; exact hrr) (by rw [hf1.2.1]; exact hcc)]
      by_cases hr1' : p / m.columns = r1
      · rw [if_pos hr1', exchangeRowsv_getv m r1 r2 h1 h2 hWF r2 _ h2 hcc]
        by_cases h12 : r2 = r1
        · rw [if_pos h12, hr1', h12]
        · rw [if_neg h12, if_pos rfl, hr1']
      · rw [if_neg hr1']
        by_cases hr2' : p / m.columns = r2
        · rw [if_pos hr2', exchangeRowsv_getv m r1 r2 h1 h2 hWF r1 _ h1 hcc,
            if_pos rfl, hr2']
        · rw [if_neg hr2', exchangeRowsv_getv m r1 r2 h1 h2 hWF _ _ hrr hcc,
            if_neg hr1', if_neg hr2']

theorem exchangeColumnsv_involutive (m : Mat) (c1 c2 : ℕ) (h1 : c1 < m.columns)
    (h2 : c2 < m.columns) (hWF : m.WF) :
    (m.exchangeColumnsv c1 c2).exchangeColumnsv c1 c2 = m := by
  have hf1 := exchangeColumnsv_fields m c1 c2
  have he1WF : (m.exchangeColumnsv c1 c2).WF := by
    show (m.exchangeColumnsv c1 c2).data.length = _
    rw [hf1.1, hf1.2.1, hf1.2.2]
    exact hWF
  have hf2 := exchangeColumnsv_fields (m.exchangeColumnsv c1 c2) c1 c2
  apply mat_eq_of_fields
  · rw [hf2.1, hf1.1]
  · rw [hf2.2.1, hf1.2.1]
  · apply data_eq_of_getD
    · rw [hf2.2.2, hf1.2.2]
    · intro p hp
      rw [hf2.2.2, hf1.2.2] at hp
      have hc0 : 0 < m.columns := by
        rcases Nat.eq_zero_or_pos m.columns with h0 | h0
        · rw [hWF, h0, Nat.mul_zero] at hp
          omega
        · exact h0
      have hcc : p % m.columns < m.columns := Nat.mod_lt _ hc0
      have hrr : p / m.columns < m.rows := by
        rw [Nat.div_lt_iff_lt_mul hc0]
        rw [hWF] at hp
        exact hp
      have hpdecomp : p = (p / m.columns) * m.columns + p % m.columns := by
        have hdm := Nat.div_add_mod p m.columns
        have hcm : m.columns * (p / m.columns) = (p / m.columns) * m.columns :=
          Nat.mul_comm _ _
        omega
      have hlhs : ((m.exchangeColumnsv c1 c2).exchangeColumnsv c1 c2).data.getD p 0
          = ((m.exchangeColumnsv c1 c2).exchangeColumnsv c1 c2).getv (p / m.columns)
              (p % m.columns) := by
        rw [getv_eq_data, hf2.2.1, hf1.2.1, ← hpdecomp]
      have hrhs : m.data.getD p 0 = m.getv (p / m.columns) (p % m.columns) := by
        rw [getv_eq_data, ← hpdecomp]
      rw [hlhs, hrhs]
      rw [exchangeColumnsv_getv (m.exchangeColumnsv c1 c2) c1 c2
        (by rw [hf1.2.1]; exact h1) (by rw [hf1.2.1]; exact h2) he1WF _ _
        (by rw [hf1.1]; exact hrr) (by rw [hf1.2.1]; exact hcc)]
      by_cases hc1' : p % m.columns = c1
      · rw [if_pos hc1', exchangeColumnsv_getv m c1 c2 h1 h2 hWF _ c2 hrr h2]
        by_cases h12 : c2 = c1
        · rw [if_pos h12, hc1', h12]
        · rw [if_neg h12, if_pos rfl, hc1']
      · rw [if_neg hc1']
        by_cases hc2' : p % m.columns = c2
        · rw [if_pos hc2', exchangeColumnsv_getv m c1 c2 h1 h2 hWF _ c1 hrr h1,
            if_pos rfl, hc2']
        · rw [if_neg hc2', exchangeColumnsv_getv m c1 c2 h1 h2 hWF _ _ hrr hcc,
            if_neg hc1', if_neg hc2']

/-- C8: for valid indices, `exchange_rows`/`exchange_columns` swap exactly the
two named rows/columns, leave every other cell unchanged, and applying the same
exchange twice restores the original matrix. -/
theorem exchange_swap_involutive (m : Mat) (hWF : m.WF) :
    (∀ r1 r2, r1 < m.rows → r2 < m.rows →
      ∃ m', m.exchange_rows r1 r2 = Except.ok m' ∧
        (∀ c, c < m.columns → m'.getv r1 c = m.getv r2 c ∧ m'.getv r2 c = m.getv r1 c) ∧
        (∀ r c, r < m.rows → c < m.columns → r ≠ r1 → r ≠ r2 →
          m'.getv r c = m.getv r c) ∧
        m'.exchange_rows r1 r2 = Except.ok m) ∧
    (∀ c1 c2, c1 < m.columns → c2 < m.columns →
      ∃ m', m.exchange_columns c1 c2 = Except.ok m' ∧
        (∀ r, r < m.rows → m'.getv r c1 = m.getv r c2 ∧ m'.getv r c2 = m.getv r c1) ∧
        (∀ r c, r < m.rows → c < m.columns → c ≠ c1 → c ≠ c2 →
          m'.getv r c = m.getv r c) ∧
        m'.exchange_columns c1 c2 = Except.ok m) := by
  constructor
  · intro r1 r2 h1 h2
    have hf1 := exchangeRowsv_fields m r1 r2
    refine ⟨m.exchangeRowsv r1 r2, by rw [Mat.exchange_rows, if_neg (by omega)], ?_, ?_, ?_⟩
    · intro c hc
      constructor
      · rw [exchangeRowsv_getv m r1 r2 h1 h2 hWF r1 c h1 hc, if_pos rfl]
      · rw [exchangeRowsv_getv m r1 r2 h1 h2 hWF r2 c h2 hc]
        by_cases h12 : r2 = r1
        · rw [if_pos h12, h12]
        · rw [if_neg h12, if_pos rfl]
    · intro r c hr hc hne1 hne2
      rw [exchangeRowsv_getv m r1 r2 h1 h2 hWF r c hr hc, if_neg hne1, if_neg hne2]
    · rw [Mat.exchange_rows, if_neg (by rw [hf1.1]; omega),
        exchangeRowsv_involutive m r1 r2 h1 h2 hWF]
  · intro c1 c2 h1 h2
    have hf1 := exchangeColumnsv_fields m c1 c2
    refine ⟨m.exchangeColumnsv c1 c2, by rw [Mat.exchange_columns, if_neg (by omega)],
      ?_, ?_, ?_⟩
    · intro r hr
      constructor
      · rw [exchangeColumnsv_getv m c1 c2 h1 h2 hWF r c1 hr h1, if_pos rfl]
      · rw [exchangeColumnsv_getv m c1 c2 h1 h2 hWF r c2 hr h2]
        by_cases h12 : c2 = c1
        · rw [if_pos h12, h12]
        · rw [if_neg h12, if_pos rfl]
    · intro r c hr hc hne1 hne2
      rw [exchangeColumnsv_getv m c1 c2 h1 h2 hWF r c hr hc, if_neg hne1, if_neg hne2]
    · rw [Mat.exchange_columns, if_neg (by rw [hf1.2.1]; omega),
        exchangeColumnsv_involutive m c1 c2 h1 h2 hWF]

/-- Witness for C8 on a concrete well-formed 2×2 matrix. -/
theorem exchange_swap_involutive_witness :
    (∀ r1 r2, r1 < (⟨2, 2, [1, 2, 3, 4]⟩ : Mat).rows →
      r2 < (⟨2, 2, [1, 2, 3, 4]⟩ : Mat).rows →
      ∃ m', Mat.exchange_rows ⟨2, 2, [1, 2, 3, 4]⟩ r1 r2 = Except.ok m' ∧
        (∀ c, c < (⟨2, 2, [1, 2, 3, 4]⟩ : Mat).columns →
          m'.getv r1 c = Mat.getv ⟨2, 2, [1, 2, 3, 4]⟩ r2 c ∧
          m'.getv r2 c = Mat.getv ⟨2, 2, [1, 2, 3, 4]⟩ r1 c) ∧
        (∀ r c, r < (⟨2, 2, [1, 2, 3, 4]⟩ : Mat).rows →
          c < (⟨2, 2, [1, 2, 3, 4]⟩ : Mat).columns → r ≠ r1 → r ≠ r2 →
          m'.getv r c = Mat.getv ⟨2, 2, [1, 2, 3, 4]⟩ r c) ∧
        m'.exchange_rows r1 r2 = Except.ok ⟨2, 2, [1, 2, 3, 4]⟩) ∧
    (∀ c1 c2, c1 < (⟨2, 2, [1, 2, 3, 4]⟩ : Mat).columns →
      c2 < (⟨2, 2, [1, 2, 3, 4]⟩ : Mat).columns →
      ∃ m', Mat.exchange_columns ⟨2, 2, [1, 2, 3, 4]⟩ c1 c2 = Except.ok m' ∧
        (∀ r, r < (⟨2, 2, [1, 2, 3, 4]⟩ : Mat).rows →
          m'.getv r c1 = Mat.getv ⟨2, 2, [1, 2, 3, 4]⟩ r c2 ∧
          m'.getv r c2 = Mat.getv ⟨2, 2, [1, 2, 3, 4]⟩ r c1) ∧
        (∀ r c, r < (⟨2, 2, [1, 2, 3, 4]⟩ : Mat).rows →
          c < (⟨2, 2, [1, 2, 3, 4]⟩ : Mat).columns → c ≠ c1 → c ≠ c2 →
          m'.getv r c = Mat.getv ⟨2, 2, [1, 2, 3, 4]⟩ r c) ∧
        m'.exchange_columns c1 c2 = Except.ok ⟨2, 2, [1, 2, 3, 4]⟩) :=
  exchange_swap_involutive ⟨2, 2, [1, 2, 3, 4]⟩ rfl

/-! ### Determinant correctness: abstraction lemmas -/

theorem findRowPivot_eq_none (trig : Mat) (i : ℕ) : ∀ fuel x,
    findRowPivot trig i x fuel = none →
    ∀ y, x ≤ y → y < x + fuel → trig.getv y i = 0 := by
  intro fuel
  induction fuel with
  | zero => intro x _ y hy1 hy2; omega
  | succ fuel ih =>
    intro x h y hy1 hy2
    rw [findRowPivot] at h
    by_cases hx : trig.getv x i ≠ 0
    · rw [if_pos hx] at h
      cases h
    · rw [if_neg hx] at h
      by_cases hyx : y = x
      · subst hyx
        exact not_not.mp hx
      · exact ih (x + 1) h y (by omega) (by omega)

theorem findColPivot_eq_none (trig : Mat) (i : ℕ) : ∀ fuel x,
    findColPivot trig i x fuel = none →
    ∀ y, x ≤ y → y < x + fuel → trig.getv i y = 0 := by
  intro fuel
  induction fuel with
  | zero => intro x _ y hy1 hy2; omega
  | succ fuel ih =>
    intro x h y hy1 hy2
    rw [findColPivot] at h
    by_cases hx : trig.getv i x ≠ 0
    · rw [if_pos hx] at h
      cases h
    · rw [if_neg hx] at h
      by_cases hyx : y = x
      · subst hyx
        exact not_not.mp hx
      · exact ih (x + 1) h y (by omega) (by omega)

theorem zipWith_map_same (g : ℚ → ℚ → ℚ) (f1 f2 : ℕ → ℚ) (l : List ℕ) :
    List.zipWith g (l.map f1) (l.map f2) = l.map fun j => g (f1 j) (f2 j) := by
  induction l with
  | nil => rfl
  | cons a l ih => simp [ih]

/-- Entry `c` of the combined row built in the elimination loop. -/
theorem elim_new_row_getD (trig : Mat) (x i c : ℕ) (mult : ℚ) (hc : c < trig.columns) :
    (List.zipWith (fun a b => a - mult * b) (trig.getRowv x) (trig.getRowv i)).getD c 0
      = trig.getv x c - mult * trig.getv i c := by
  rw [Mat.getRowv, Mat.getRowv, zipWith_map_same, getD_map_range _ _ _ hc,
    Mat.getv, Mat.getv, Nat.mul_comm trig.columns x, Nat.mul_comm trig.columns i]

theorem elim_new_row_length (trig : Mat) (x i : ℕ) (mult : ℚ) :
    (List.zipWith (fun a b => a - mult * b) (trig.getRowv x) (trig.getRowv i)).length
      = trig.columns := by
  simp [Mat.getRowv]

/-- A row exchange inside the working matrix is a row permutation of the
abstract matrix, so it negates the determinant. -/
theorem det_toMat_exchangeRows (m : Mat) (n x i : ℕ) (h1 : m.rows = n)
    (h2 : m.columns = n) (hWF : m.WF) (hx : x < n) (hi : i < n) (hne : x ≠ i) :
    (toMat (m.exchangeRowsv x i) n).det = -(toMat m n).det := by
  have habs : toMat (m.exchangeRowsv x i) n
      = (toMat m n).submatrix (Equiv.swap ⟨x, hx⟩ ⟨i, hi⟩) id := by
    funext r c
    show (m.exchangeRowsv x i).getv r c
      = (toMat m n) (Equiv.swap ⟨x, hx⟩ ⟨i, hi⟩ r) c
    rw [exchangeRowsv_getv m x i (by omega) (by omega) hWF r c (by omega) (by omega)]
    by_cases hrx : (r : ℕ) = x
    · have hr' : r = ⟨x, hx⟩ := Fin.ext hrx
      rw [if_pos hrx, hr', Equiv.swap_apply_left]
      rfl
    · by_cases hri : (r : ℕ) = i
      · have hr' : r = ⟨i, hi⟩ := Fin.ext hri
        rw [if_neg hrx, if_pos hri, hr', Equiv.swap_apply_right]
        rfl
      · rw [if_neg hrx, if_neg hri,
          Equiv.swap_apply_of_ne_of_ne (fun h => hrx (by rw [h]))
            (fun h => hri (by rw [h]))]
        rfl
  rw [habs, Matrix.det_permute,
    Equiv.Perm.sign_swap (by simp [Fin.ext_iff]; exact hne)]
  simp

/-- A column exchange is a column permutation of the abstract matrix. -/
theorem det_toMat_exchangeCols (m : Mat) (n i x : ℕ) (h1 : m.rows = n)
    (h2 : m.columns = n) (hWF : m.WF) (hi : i < n) (hx : x < n) (hne : i ≠ x) :
    (toMat (m.exchangeColumnsv i x) n).det = -(toMat m n).det := by
  have habs : toMat (m.exchangeColumnsv i x) n
      = (toMat m n).submatrix id (Equiv.swap ⟨i, hi⟩ ⟨x, hx⟩) := by
    funext r c
    show (m.exchangeColumnsv i x).getv r c
      = (toMat m n) r (Equiv.swap ⟨i, hi⟩ ⟨x, hx⟩ c)
    rw [exchangeColumnsv_getv m i x (by omega) (by omega) hWF r c (by omega) (by omega)]
    by_cases hci : (c : ℕ) = i
    · have hc' : c = ⟨i, hi⟩ := Fin.ext hci
      rw [if_pos hci, hc', Equiv.swap_apply_left]
      rfl
    · by_cases hcx : (c : ℕ) = x
      · have hc' : c = ⟨x, hx⟩ := Fin.ext hcx
        rw [if_neg hci, if_pos hcx, hc', Equiv.swap_apply_right]
        rfl
      · rw [if_neg hci, if_neg hcx,
          Equiv.swap_apply_of_ne_of_ne (fun h => hci (by rw [h]))
            (fun h => hcx (by rw [h]))]
        rfl
  rw [habs, Matrix.det_permute',
    Equiv.Perm.sign_swap (by simp [Fin.ext_iff]; exact hne)]
  simp

/-- Replacing row `x` by `row_x - mult * row_i` (the elimination step) leaves
the determinant unchanged. -/
theorem det_setRow_combo (trig : Mat) (n x i : ℕ) (h1 : trig.rows = n)
    (h2 : trig.columns = n) (hWF : trig.WF) (hx : x < n) (hi : i < n) (hne : x ≠ i)
    (mult : ℚ) :
    (toMat (trig.setRowv x (List.zipWith (fun a b => a - mult * b)
      (trig.getRowv x) (trig.getRowv i))) n).det = (toMat trig n).det := by
  have hlen := elim_new_row_length trig x i mult
  have habs : toMat (trig.setRowv x (List.zipWith (fun a b => a - mult * b)
      (trig.getRowv x) (trig.getRowv i))) n
      = (toMat trig n).updateRow ⟨x, hx⟩
        ((toMat trig n) ⟨x, hx⟩ + (-mult) • (toMat trig n) ⟨i, hi⟩) := by
    funext r c
    show (trig.setRowv x _).getv r c = _
    rw [setRowv_getv trig x _ hWF hlen r c (by omega) (by omega),
      Matrix.updateRow_apply]
    by_cases hrx : (r : ℕ) = x
    · have hr' : r = ⟨x, hx⟩ := Fin.ext hrx
      rw [if_pos hrx, if_pos hr',
        elim_new_row_getD trig x i c mult (by omega)]
      show trig.getv x c - mult * trig.getv i c
        = ((toMat trig n) ⟨x, hx⟩ + (-mult) • (toMat trig n) ⟨i, hi⟩) c
      rw [Pi.add_apply, Pi.smul_apply]
      show trig.getv x c - mult * trig.getv i c
        = trig.getv x c + (-mult) • trig.getv i c
      rw [smul_eq_mul]
      ring
    · have hr' : r ≠ ⟨x, hx⟩ := fun h => hrx (by rw [h])
      rw [if_neg hrx, if_neg hr']
      rfl
  rw [habs]
  exact Matrix.det_updateRow_add_smul_self (toMat trig n)
    (fun h => hne (by simpa [Fin.ext_iff] using h)) (-mult)

theorem elimLoop_succ (i : ℕ) (pivot : ℚ) (x fuel : ℕ) (trig : Mat) :
    elimLoop i pivot x (fuel + 1) trig = elimLoop i pivot (x + 1) fuel
      (trig.setRowv x (List.zipWith (fun a b => a - (trig.getv x i / pivot) * b)
        (trig.getRowv x) (trig.getRowv i))) := rfl

/-- Full specification of the elimination inner loop: shape is preserved, rows
outside `[x, x+fuel)` are untouched, each row inside is replaced by
`row_r - (row_r[i]/pivot) * row_i`, and the determinant of the abstraction is
unchanged. -/
theorem elimLoop_spec (n i : ℕ) (pivot : ℚ) (hi : i < n) : ∀ fuel x trig,
    trig.rows = n → trig.columns = n → trig.WF → i < x → x + fuel ≤ n →
    (elimLoop i pivot x fuel trig).rows = n ∧
    (elimLoop i pivot x fuel trig).columns = n ∧
    (elimLoop i pivot x fuel trig).WF ∧
    (∀ r c, r < n → c < n → (r < x ∨ x + fuel ≤ r) →
      (elimLoop i pivot x fuel trig).getv r c = trig.getv r c) ∧
    (∀ r c, r < n → c < n → x ≤ r → r < x + fuel →
      (elimLoop i pivot x fuel trig).getv r c
        = trig.getv r c - (trig.getv r i / pivot) * trig.getv i c) ∧
    (toMat (elimLoop i pivot x fuel trig) n).det = (toMat trig n).det := by
  intro fuel
  induction fuel with
  | zero =>
    intro x trig h1 h2 hWF hx hxf
    exact ⟨h1, h2, hWF, fun r c _ _ _ => rfl, fun r c _ _ h3 h4 => by omega, rfl⟩
  | succ fuel ih =>
    intro x trig h1 h2 hWF hx hxf
    rw [elimLoop_succ]
    have hnrlen := elim_new_row_length trig x i (trig.getv x i / pivot)
    have hfld := setRowv_fields trig x (List.zipWith
      (fun a b => a - (trig.getv x i / pivot) * b) (trig.getRowv x) (trig.getRowv i))
    have h1' : (trig.setRowv x (List.zipWith (fun a b => a - (trig.getv x i / pivot) * b)
        (trig.getRowv x) (trig.getRowv i))).rows = n := by
      rw [hfld.1]
      exact h1
    have h2' : (trig.setRowv x (List.zipWith (fun a b => a - (trig.getv x i / pivot) * b)
        (trig.getRowv x) (trig.getRowv i))).columns = n := by
      rw [hfld.2.1]
      exact h2
    have hWF' : (trig.setRowv x (List.zipWith (fun a b => a - (trig.getv x i / pivot) * b)
        (trig.getRowv x) (trig.getRowv i))).WF := by
      show _ = _
      rw [hfld.2.2, hfld.1, hfld.2.1]
      exact hWF
    have hvlen : (List.zipWith (fun a b => a - (trig.getv x i / pivot) * b)
        (trig.getRowv x) (trig.getRowv i)).length = trig.columns := hnrlen
    obtain ⟨g1, g2, g3, gUnch, gUpd, gDet⟩ :=
      ih (x + 1) _ h1' h2' hWF' (by omega) (by omega)
    refine ⟨g1, g2, g3, ?_, ?_, ?_⟩
    · intro r c hr hc hcond
      rw [gUnch r c hr hc (by omega),
        setRowv_getv trig x _ hWF hvlen r c (by omega) (by omega),
        if_neg (show ¬r = x by omega)]
    · intro r c hr hc hxr hrf
      by_cases hrx : r = x
      · subst hrx
        rw [gUnch r c hr hc (Or.inl (by omega)),
          setRowv_getv trig r _ hWF hvlen r c (by omega) (by omega),
          if_pos rfl, elim_new_row_getD trig r i c (trig.getv r i / pivot) (by omega)]
      · rw [gUpd r c hr hc (by omega) (by omega),
          setRowv_getv trig x _ hWF hvlen r c (by omega) (by omega), if_neg hrx,
          setRowv_getv trig x _ hWF hvlen r i (by omega) (by omega), if_neg hrx,
          setRowv_getv trig x _ hWF hvlen i c (by omega) (by omega),
          if_neg (show ¬i = x by omega)]
    · rw [gDet]
      exact det_setRow_combo trig n x i h1 h2 hWF (by omega) hi
        (by omega) (trig.getv x i / pivot)

theorem detGo_zero (srows scols i : ℕ) (trig : Mat) (sign : ℚ) :
    detGo srows scols i 0 trig sign = sign * trig.getDiagonalv.prod := rfl

theorem detGo_step_eval (srows scols i fuel : ℕ) (trig : Mat) (sign : ℚ)
    (t2 : Mat) (s2 p2 : ℚ)
    (h : colPhase scols i (rowPhase srows i (trig, sign, trig.getv i i)) = (t2, s2, p2)) :
    detGo srows scols i (fuel + 1) trig sign =
      if p2 = 0 then 0
      else detGo srows scols (i + 1) fuel
        (elimLoop i p2 (i + 1) (t2.rows - (i + 1)) t2) s2 := by
  rw [detGo_succ, h]

/-- With a nonzero pivot at `(i,i)`, the elimination pass keeps the shape and
the determinant and extends the strictly-lower-zeros invariant to column `i`. -/
theorem elim_invariant (n i : ℕ) (trig : Mat) (hi : i < n)
    (h1 : trig.rows = n) (h2 : trig.columns = n) (hWF : trig.WF)
    (hz : ∀ r c, r < n → c < n → c < i → c < r → trig.getv r c = 0)
    (hp : trig.getv i i ≠ 0) :
    (elimLoop i (trig.getv i i) (i + 1) (trig.rows - (i + 1)) trig).rows = n ∧
    (elimLoop i (trig.getv i i) (i + 1) (trig.rows - (i + 1)) trig).columns = n ∧
    (elimLoop i (trig.getv i i) (i + 1) (trig.rows - (i + 1)) trig).WF ∧
    (toMat (elimLoop i (trig.getv i i) (i + 1) (trig.rows - (i + 1)) trig) n).det
      = (toMat trig n).det ∧
    (∀ r c, r < n → c < n → c < i + 1 → c < r →
      (elimLoop i (trig.getv i i) (i + 1) (trig.rows - (i + 1)) trig).getv r c = 0) := by
  obtain ⟨g1, g2, g3, gUnch, gUpd, gDet⟩ :=
    elimLoop_spec n i (trig.getv i i) hi (trig.rows - (i + 1)) (i + 1) trig
      h1 h2 hWF (by omega) (by omega)
  refine ⟨g1, g2, g3, gDet, ?_⟩
  intro r c hr hc hci1 hcr
  by_cases hcLt : c < i
  · by_cases hrot : r < i + 1
    · rw [gUnch r c hr hc (Or.inl hrot)]
      exact hz r c hr hc hcLt hcr
    · rw [gUpd r c hr hc (by omega) (by omega),
        hz r c hr hc hcLt hcr, hz i c hi hc hcLt hcLt]
      ring
  · have hc_eq : c = i := by omega
    subst hc_eq
    rw [gUpd r c hr hc (by omega) (by omega), div_mul_cancel₀ _ hp, sub_self]

/-- Main loop invariant: if the strictly-lower entries left of column `i` are
zero, the sign is ±1, and `det(working) = sign * D`, then the remaining loop
computes exactly `D`. -/
theorem detGo_det (n : ℕ) (D : ℚ) : ∀ fuel i trig sign,
    i + fuel = n → trig.rows = n → trig.columns = n → trig.WF →
    (sign = 1 ∨ sign = -1) →
    (toMat trig n).det = sign * D →
    (∀ r c, r < n → c < n → c < i → c < r → trig.getv r c = 0) →
    detGo n n i fuel trig sign = D := by
  intro fuel
  induction fuel with
  | zero =>
    intro i trig sign hif h1 h2 hWF hsign hdet hz
    have hblock : (toMat trig n).BlockTriangular id := by
      intro r c hlt
      show trig.getv r c = 0
      exact hz r c r.isLt c.isLt (by omega) hlt
    have hdiag : trig.getDiagonalv.prod = ∏ j : Fin n, (toMat trig n) j j := by
      calc trig.getDiagonalv.prod
          = ∏ j ∈ Finset.range n, trig.data.getD (j + j * n) 0 := by
            rw [Mat.getDiagonalv, h2, prod_map_range]
        _ = ∏ j ∈ Finset.range n, trig.getv j j :=
            Finset.prod_congr rfl fun j hj => by
              rw [Mat.getv, h2, Nat.add_comm j (j * n)]
        _ = ∏ j : Fin n, (toMat trig n) j j :=
            (Fin.prod_univ_eq_prod_range (fun j => trig.getv j j) n).symm
    rw [detGo_zero, hdiag, ← Matrix.det_of_upperTriangular hblock, hdet]
    rcases hsign with h | h <;> subst h <;> ring
  | succ fuel ih =>
    intro i trig sign hif h1 h2 hWF hsign hdet hz
    have hiln : i < n := by omega
    by_cases hp0 : trig.getv i i = 0
    · rcases hfr : findRowPivot trig i (i + 1) (n - (i + 1)) with _ | x
      · rcases hfc : findColPivot trig i (i + 1) (n - (i + 1)) with _ | x
        · rw [detGo_step_eval n n i fuel trig sign trig sign (trig.getv i i)
            (by rw [rowPhase_none _ _ _ _ _ hp0 hfr, colPhase_none _ _ _ _ _ hp0 hfc]),
            if_pos hp0]
          have hrowzero : ∀ j : Fin n, (toMat trig n) ⟨i, hiln⟩ j = 0 := by
            intro j
            show trig.getv i j = 0
            rcases Nat.lt_trichotomy (j : ℕ) i with hlt | heq | hgt
            · exact hz i j hiln j.isLt hlt hlt
            · rw [heq]
              exact hp0
            · exact findColPivot_eq_none trig i _ _ hfc j (by omega) (by omega)
          have hdet0 : (toMat trig n).det = 0 :=
            Matrix.det_eq_zero_of_row_eq_zero ⟨i, hiln⟩ hrowzero
          rw [hdet0] at hdet
          rcases hsign with h | h <;> subst h <;> linarith
        · obtain ⟨hx1, hx2, hx3⟩ := findColPivot_some trig i _ _ x hfc
          have hxn : x < n := by omega
          have hf := exchangeColumnsv_fields trig i x
          have h1c : (trig.exchangeColumnsv i x).rows = n := by
            rw [hf.1]
            exact h1
          have h2c : (trig.exchangeColumnsv i x).columns = n := by
            rw [hf.2.1]
            exact h2
          have hWFc : (trig.exchangeColumnsv i x).WF := by
            show _ = _
            rw [hf.2.2, hf.1, hf.2.1]
            exact hWF
          have hpiv' : (trig.exchangeColumnsv i x).getv i i = trig.getv i x := by
            rw [exchangeColumnsv_getv trig i x (by omega) (by omega) hWF i i
              (by omega) (by omega), if_pos rfl]
          have hp' : (trig.exchangeColumnsv i x).getv i i ≠ 0 := by
            rw [hpiv']
            exact hx3
          rw [detGo_step_eval n n i fuel trig sign (trig.exchangeColumnsv i x) (-sign)
            ((trig.exchangeColumnsv i x).getv i i)
            (by rw [rowPhase_none _ _ _ _ _ hp0 hfr, colPhase_found _ _ _ _ _ hp0 x hfc]),
            if_neg hp']
          have hz' : ∀ r c, r < n → c < n → c < i → c < r →
              (trig.exchangeColumnsv i x).getv r c = 0 := by
            intro r c hr hc hci hcr
            rw [exchangeColumnsv_getv trig i x (by omega) (by omega) hWF r c
              (by omega) (by omega), if_neg (by omega), if_neg (by omega)]
            exact hz r c hr hc hci hcr
          obtain ⟨e1, e2, e3, eDet, ez⟩ := elim_invariant n i
            (trig.exchangeColumnsv i x) hiln h1c h2c hWFc hz' hp'
          refine ih (i + 1) _ (-sign) (by omega) e1 e2 e3
            (by rcases hsign with h | h <;> subst h <;> norm_num) ?_ ez
          rw [eDet, det_toMat_exchangeCols trig n i x h1 h2 hWF hiln hxn (by omega),
            hdet]
          ring
      · obtain ⟨hx1, hx2, hx3⟩ := findRowPivot_some trig i _ _ x hfr
        have hxn : x < n := by omega
        have hf := exchangeRowsv_fields trig x i
        have h1r : (trig.exchangeRowsv x i).rows = n := by
          rw [hf.1]
          exact h1
        have h2r : (trig.exchangeRowsv x i).columns = n := by
          rw [hf.2.1]
          exact h2
        have hWFr : (trig.exchangeRowsv x i).WF := by
          show _ = _
          rw [hf.2.2, hf.1, hf.2.1]
          exact hWF
        have hpiv' : (trig.exchangeRowsv x i).getv i i = trig.getv x i := by
          rw [exchangeRowsv_getv trig x i (by omega) (by omega) hWF i i
            (by omega) (by omega), if_neg (by omega), if_pos rfl]
        have hp' : (trig.exchangeRowsv x i).getv i i ≠ 0 := by
          rw [hpiv']
          exact hx3
        rw [detGo_step_eval n n i fuel trig sign (trig.exchangeRowsv x i) (-sign)
          ((trig.exchangeRowsv x i).getv i i)
          (by rw [rowPhase_found _ _ _ _ _ hp0 x hfr, colPhase_nonzero _ _ _ _ _ hp']),
          if_neg hp']
        have hz' : ∀ r c, r < n → c < n → c < i → c < r →
            (trig.exchangeRowsv x i).getv r c = 0 := by
          intro r c hr hc hci hcr
          rw [exchangeRowsv_getv trig x i (by omega) (by omega) hWF r c
            (by omega) (by omega)]
          by_cases hrx : r = x
          · rw [if_pos hrx]
            exact hz i c hiln hc hci hci
          · rw [if_neg hrx]
            by_cases hri : r = i
            · rw [if_pos hri]
              exact hz x c hxn hc hci (by omega)
            · rw [if_neg hri]
              exact hz r c hr hc hci hcr
        obtain ⟨e1, e2, e3, eDet, ez⟩ := elim_invariant n i
          (trig.exchangeRowsv x i) hiln h1r h2r hWFr hz' hp'
        refine ih (i + 1) _ (-sign) (by omega) e1 e2 e3
          (by rcases hsign with h | h <;> subst h <;> norm_num) ?_ ez
        rw [eDet, det_toMat_exchangeRows trig n x i h1 h2 hWF hxn hiln (by omega),
          hdet]
        ring
    · rw [detGo_step_eval n n i fuel trig sign trig sign (trig.getv i i)
        (by rw [rowPhase_nonzero _ _ _ _ _ hp0, colPhase_nonzero _ _ _ _ _ hp0]),
        if_neg hp0]
      obtain ⟨e1, e2, e3, eDet, ez⟩ := elim_invariant n i trig hiln h1 h2 hWF hz hp0
      refine ih (i + 1) _ sign (by omega) e1 e2 e3 hsign ?_ ez
      rw [eDet]
      exact hdet

/-- Helper: `get_determinant` on a well-formed square matrix returns exactly the
determinant of its abstraction (shared by the C1 and C9 theorems). -/
theorem get_determinant_det (m : Mat) (n : ℕ) (hrn : m.rows = n) (hcn : m.columns = n)
    (hWF : m.WF) : m.get_determinant = Except.ok ((toMat m n).det) := by
  rw [Mat.get_determinant, if_neg (by omega)]
  congr 1
  have hcopy : (⟨m.rows, m.columns, m.data⟩ : Mat) = m := rfl
  rw [hcopy, hrn, hcn]
  exact detGo_det n ((toMat m n).det) n 0 m 1 (by omega) hrn hcn hWF (Or.inl rfl)
    (by rw [one_mul]) (fun r c _ _ hci _ => absurd hci (Nat.not_lt_zero c))

/-- C1: on every well-formed square matrix, `get_determinant` returns the
determinant under standard multilinear-algebra semantics — the row-reduction
with row-then-column pivot exchange, sign tracking, and final
sign-times-diagonal-product computes `Matrix.det` of the abstraction exactly
(over the exact field ℚ). -/
theorem get_determinant_correct (m : Mat) (n : ℕ) (hrn : m.rows = n)
    (hcn : m.columns = n) (hWF : m.WF) :
    m.get_determinant = Except.ok ((toMat m n).det) :=
  get_determinant_det m n hrn hcn hWF

/-- Witness for C1: the spec's own 2×2 example `[[2,3],[4,5]]`, determinant −2. -/
theorem get_determinant_correct_witness :
    Mat.get_determinant ⟨2, 2, [2, 3, 4, 5]⟩
        = Except.ok ((toMat ⟨2, 2, [2, 3, 4, 5]⟩ 2).det) ∧
      (toMat (⟨2, 2, [2, 3, 4, 5]⟩ : Mat) 2).det = -2 :=
  ⟨get_determinant_correct ⟨2, 2, [2, 3, 4, 5]⟩ 2 rfl rfl rfl,
    by
      rw [Matrix.det_fin_two]
      norm_num [toMat, Mat.getv]⟩

/-- C9: for distinct valid indices, a single row exchange negates the value of
`get_determinant`; likewise a single column exchange. -/
theorem det_antisymmetric_under_exchange (m : Mat) (n i j : ℕ) (hrn : m.rows = n)
    (hcn : m.columns = n) (hWF : m.WF) (hi : i < n) (hj : j < n) (hne : i ≠ j) :
    (∃ mr d, m.exchange_rows i j = Except.ok mr ∧
      m.get_determinant = Except.ok d ∧ mr.get_determinant = Except.ok (-d)) ∧
    (∃ mc d, m.exchange_columns i j = Except.ok mc ∧
      m.get_determinant = Except.ok d ∧ mc.get_determinant = Except.ok (-d)) := by
  constructor
  · have hf := exchangeRowsv_fields m i j
    have h1 : (m.exchangeRowsv i j).rows = n := by
      rw [hf.1]
      exact hrn
    have h2 : (m.exchangeRowsv i j).columns = n := by
      rw [hf.2.1]
      exact hcn
    have hWF' : (m.exchangeRowsv i j).WF := by
      show _ = _
      rw [hf.2.2, hf.1, hf.2.1]
      exact hWF
    refine ⟨m.exchangeRowsv i j, (toMat m n).det,
      by rw [Mat.exchange_rows, if_neg (by omega)],
      get_determinant_det m n hrn hcn hWF, ?_⟩
    rw [get_determinant_det (m.exchangeRowsv i j) n h1 h2 hWF',
      det_toMat_exchangeRows m n i j hrn hcn hWF hi hj hne]
  · have hf := exchangeColumnsv_fields m i j
    have h1 : (m.exchangeColumnsv i j).rows = n := by
      rw [hf.1]
      exact hrn
    have h2 : (m.exchangeColumnsv i j).columns = n := by
      rw [hf.2.1]
      exact hcn
    have hWF' : (m.exchangeColumnsv i j).WF := by
      show _ = _
      rw [hf.2.2, hf.1, hf.2.1]
      exact hWF
    refine ⟨m.exchangeColumnsv i j, (toMat m n).det,
      by rw [Mat.exchange_columns, if_neg (by omega)],
      get_determinant_det m n hrn hcn hWF, ?_⟩
    rw [get_determinant_det (m.exchangeColumnsv i j) n h1 h2 hWF',
      det_toMat_exchangeCols m n i j hrn hcn hWF hi hj hne]

/-- Witness for C9: exchanging the rows (and columns) of `[[2,3],[4,5]]`. -/
theorem det_antisymmetric_under_exchange_witness :
    (∃ mr d, Mat.exchange_rows ⟨2, 2, [2, 3, 4, 5]⟩ 0 1 = Except.ok mr ∧
      Mat.get_determinant ⟨2, 2, [2, 3, 4, 5]⟩ = Except.ok d ∧
      mr.get_determinant = Except.ok (-d)) ∧
    (∃ mc d, Mat.exchange_columns ⟨2, 2, [2, 3, 4, 5]⟩ 0 1 = Except.ok mc ∧
      Mat.get_determinant ⟨2, 2, [2, 3, 4, 5]⟩ = Except.ok d ∧
      mc.get_determinant = Except.ok (-d)) :=
  det_antisymmetric_under_exchange ⟨2, 2, [2, 3, 4, 5]⟩ 2 0 1 rfl rfl rfl
    (by omega) (by omega) (by omega)

example : Mat.get_determinant ⟨2, 2, [2, 3, 4, 5]⟩ = Except.ok (-2) := by
  norm_num [Mat.get_determinant, detGo, rowPhase, colPhase, findRowPivot, findColPivot,
    elimLoop, Mat.getv, Mat.setv, Mat.setRowv, Mat.getRowv, Mat.getDiagonalv,
    Mat.exchangeRowsv, Mat.exchangeColumnsv, Mat.getColumnv, loopN, List.range_succ]
example : Mat.get_determinant ⟨3, 3, [3, 2, 1, 4, 5, 6, 7, 8, 9]⟩ = Except.ok 0 := by
  norm_num [Mat.get_determinant, detGo, rowPhase, colPhase, findRowPivot, findColPivot,
    elimLoop, Mat.getv, Mat.setv, Mat.setRowv, Mat.getRowv, Mat.getDiagonalv,
    Mat.exchangeRowsv, Mat.exchangeColumnsv, Mat.getColumnv, loopN, List.range_succ]
example : Mat.get_determinant ⟨2, 2, [0, 1, 1, 0]⟩ = Except.ok (-1) := by
  norm_num [Mat.get_determinant, detGo, rowPhase, colPhase, findRowPivot, findColPivot,
    elimLoop, Mat.getv, Mat.setv, Mat.setRowv, Mat.getRowv, Mat.getDiagonalv,
    Mat.exchangeRowsv, Mat.exchangeColumnsv, Mat.getColumnv, loopN, List.range_succ]
example : Mat.get_determinant ⟨2, 2, [0, 1, 0, 1]⟩ = Except.ok 0 := by
  norm_num [Mat.get_determinant, detGo, rowPhase, colPhase, findRowPivot, findColPivot,
    elimLoop, Mat.getv, Mat.setv, Mat.setRowv, Mat.getRowv, Mat.getDiagonalv,
    Mat.exchangeRowsv, Mat.exchangeColumnsv, Mat.getColumnv, loopN, List.range_succ]
example : Mat.get_determinant ⟨0, 0, []⟩ = Except.ok 1 := by
  norm_num [Mat.get_determinant, detGo, Mat.getDiagonalv]
example : Mat.get_determinant ⟨2, 3, [0, 1, 0, 1, 2, 2]⟩ = Except.error .notSquare := by
  norm_num [Mat.get_determinant]

end RustMatrix
